import Mathlib

/-!
Shallow embedding of the matching, ranking and convergence engine of the
tidal-library-tools repository (`limpiar_duplicados_tidal.py`,
`mejorar_calidad_tidal.py`), together with proofs that settle the frozen
claims about its specification.

Strings are modelled as `List Char`.  Python's `str.lower`, the character
class `\w`, `\d`, `\s` of the `re` module and `str.split()` are modelled at
ASCII fidelity (all concrete inputs used in counterexamples and witnesses
are ASCII).  The fixed regular expressions of the source are compiled into
dedicated scanners with Python's leftmost, first-alternative, non-greedy
(`.*?`) and word-boundary (`\b`) semantics.
-/

namespace Tidal

/-- Python `\s` (ASCII range), also the class used by `str.split()`. -/
def pyIsSpace (c : Char) : Bool :=
  c = ' ' || c = '\t' || c = '\n' || c = '\r' || c = '\x0b' || c = '\x0c'

/-- Python regex `\w` (ASCII range): letters, digits and underscore. -/
def isWordChar (c : Char) : Bool := c.isAlphanum || c = '_'

/-- Python `str.lower` on one character (ASCII range). -/
def pyLowerChar (c : Char) : Char :=
  if 'A' ≤ c && c ≤ 'Z' then Char.ofNat (c.toNat + 32) else c

/-- Python `str.upper` on one character (ASCII range). -/
def pyUpperChar (c : Char) : Char :=
  if 'a' ≤ c && c ≤ 'z' then Char.ofNat (c.toNat - 32) else c

/-- Python `text.lower()`. -/
def pyLower (s : List Char) : List Char := s.map pyLowerChar

/-- Python `text.upper()`. -/
def pyUpper (s : List Char) : List Char := s.map pyUpperChar

/-- Helper for the non-greedy span regexes `\(.*?\)` and `\[.*?\]`: find the
first closing delimiter, failing if a newline (which `.` does not match)
comes first.  Returns the suffix after the closing delimiter. -/
def findClose (cl : Char) : List Char → Option (List Char)
  | [] => none
  | c :: cs => if c = cl then some cs else if c = '\n' then none else findClose cl cs

theorem findClose_length {cl : Char} : ∀ {s r : List Char},
    findClose cl s = some r → r.length < s.length := by
  intro s
  induction s with
  | nil => intro r h; simp [findClose] at h
  | cons c cs ih =>
    intro r h
    simp only [findClose] at h
    split at h
    · cases h; simp
    · split at h
      · cases h
      · exact Nat.lt_trans (ih h) (Nat.lt_succ_self _)

/-- Fuel-indexed scanner for `re.sub(r"\(.*?\)", " ", text)` (and the
bracket variant): replace each leftmost non-greedy delimited span by one
space.  An opening delimiter with no closing delimiter before a newline is
left in place and scanning resumes at the next character, exactly as the
regex engine does.  Every step strictly shrinks the subject, so fuel equal
to the subject length (supplied by `stripDelims`) never runs out. -/
def stripDelimsF (o cl : Char) : Nat → List Char → List Char
  | _, [] => []
  | 0, s => s
  | f + 1, c :: cs =>
    if c = o then
      match findClose cl cs with
      | some rest => ' ' :: stripDelimsF o cl f rest
      | none => c :: stripDelimsF o cl f cs
    else c :: stripDelimsF o cl f cs

/-- Model of `re.sub(r"\(.*?\)", " ", text)` (and the bracket variant). -/
def stripDelims (o cl : Char) (s : List Char) : List Char := stripDelimsF o cl s.length s

/-- Case-insensitive literal match (pattern given in lowercase): returns the
remaining suffix when the literal is a prefix of the subject. -/
def litMatch : List Char → List Char → Option (List Char)
  | [], s => some s
  | _ :: _, [] => none
  | w :: ws, c :: cs => if pyLowerChar c = w then litMatch ws cs else none

/-- Model of `\b` after a token ending in a word character: next char absent or non-word. -/
def boundaryOk : List Char → Bool
  | [] => true
  | c :: _ => !isWordChar c

/-- Model of `\b` before a token starting with a word character: previous char absent
or non-word. -/
def prevOk : Option Char → Bool
  | none => true
  | some p => !isWordChar p

/-- Match one whole-word noise token `\bw\b` at the current position. -/
def wordMatch (w : List Char) (prev : Option Char) (s : List Char) : Option (List Char) :=
  if prevOk prev then
    match litMatch w s with
    | some rest => if boundaryOk rest then some rest else none
    | none => none
  else none

/-- Model of `\bremaster(?:ed)?\b` at the current position (greedy optional `ed`,
with regex backtracking order). -/
def remasterMatch (prev : Option Char) (s : List Char) : Option (List Char) :=
  if prevOk prev then
    match litMatch "remaster".toList s with
    | some r8 =>
      match litMatch "ed".toList r8 with
      | some r10 =>
        if boundaryOk r10 then some r10
        else if boundaryOk r8 then some r8 else none
      | none => if boundaryOk r8 then some r8 else none
    | none => none
  else none

/-- Model of `(19|20)\d{2}\b` at the current position, returning the year value and
the remaining suffix. -/
def yearAt : List Char → Option (Nat × List Char)
  | c1 :: c2 :: c3 :: c4 :: rest =>
    if ((c1 = '1' && c2 = '9') || (c1 = '2' && c2 = '0')) && c3.isDigit && c4.isDigit
        && boundaryOk rest then
      some ((c1.toNat - 48) * 1000 + (c2.toNat - 48) * 100 + (c3.toNat - 48) * 10
        + (c4.toNat - 48), rest)
    else none
  | _ => none

/-- Model of `\b(19|20)\d{2}\b` at the current position. -/
def yearMatch (prev : Option Char) (s : List Char) : Option (List Char) :=
  if prevOk prev then (yearAt s).map (fun p => p.2) else none

/-- The suffixes of `\b\d+(st|nd|rd|th)\b` (case-insensitive). -/
def ordSuffix (a b : Char) : Bool :=
  (a = 's' && b = 't') || (a = 'n' && b = 'd') || (a = 'r' && b = 'd') || (a = 't' && b = 'h')

/-- Model of `\b\d+(st|nd|rd|th)\b` at the current position.  The greedy `\d+` takes
the whole digit run; giving digits back can never help because the suffix
alternatives contain no digits. -/
def ordMatch (prev : Option Char) (s : List Char) : Option (List Char) :=
  if prevOk prev then
    let ds := s.takeWhile Char.isDigit
    let rest := s.dropWhile Char.isDigit
    if ds.isEmpty then none
    else
      match rest with
      | a :: b :: r2 =>
        if ordSuffix (pyLowerChar a) (pyLowerChar b) && boundaryOk r2 then some r2 else none
      | _ => none
  else none

/-- The single-regex noise alternatives of `NOISE_PATTERNS` that are plain
whole-word literals, in the source order (between `remaster(?:ed)?` and the
year/ordinal patterns). -/
def noiseWordList : List (List Char) :=
  ["anniversary", "deluxe", "bonus", "album version", "single version", "radio edit",
   "original", "explicit", "clean", "live", "acoustic", "mono", "stereo",
   "digital remaster", "revisited", "expanded", "special edition"].map String.toList

/-- First-alternative match over a list of literal word tokens. -/
def firstWordMatch (prev : Option Char) (s : List Char) : List (List Char) → Option (List Char)
  | [] => none
  | w :: ws => (wordMatch w prev s).orElse (fun _ => firstWordMatch prev s ws)

/-- A match of `NOISE_RE` (the `|`-join of `NOISE_PATTERNS`) at the current
position, trying the alternatives in the source order. -/
def noiseMatch (prev : Option Char) (s : List Char) : Option (List Char) :=
  (remasterMatch prev s).orElse (fun _ =>
    (firstWordMatch prev s noiseWordList).orElse (fun _ =>
      (yearMatch prev s).orElse (fun _ => ordMatch prev s)))

theorem litMatch_length : ∀ {w s r : List Char},
    litMatch w s = some r → r.length + w.length = s.length := by
  intro w
  induction w with
  | nil => intro s r h; cases h; simp [litMatch]
  | cons x ws ih =>
    intro s r h
    cases s with
    | nil => simp [litMatch] at h
    | cons c cs =>
      simp only [litMatch] at h
      split at h
      · have := ih h
        simp only [List.length_cons]
        omega
      · cases h

theorem wordMatch_length {w : List Char} (hw : w ≠ []) {prev : Option Char}
    {s r : List Char} (h : wordMatch w prev s = some r) : r.length < s.length := by
  unfold wordMatch at h
  split at h
  · split at h
    next heq =>
      split at h
      · cases h
        have := litMatch_length heq
        cases w with
        | nil => exact absurd rfl hw
        | cons a as => simp only [List.length_cons] at this; omega
      · cases h
    · cases h
  · cases h

theorem firstWordMatch_length : ∀ {ws : List (List Char)}, (∀ w ∈ ws, w ≠ []) →
    ∀ {prev : Option Char} {s r : List Char},
    firstWordMatch prev s ws = some r → r.length < s.length := by
  intro ws
  induction ws with
  | nil => intro _ prev s r h; simp [firstWordMatch] at h
  | cons w ws ih =>
    intro hne prev s r h
    simp only [firstWordMatch] at h
    cases hw : wordMatch w prev s with
    | some r' =>
      rw [hw] at h
      simp [Option.orElse] at h
      cases h
      exact wordMatch_length (hne w (by simp)) hw
    | none =>
      rw [hw] at h
      simp [Option.orElse] at h
      exact ih (fun x hx => hne x (by simp [hx])) h

theorem remasterMatch_length {prev : Option Char} {s r : List Char}
    (h : remasterMatch prev s = some r) : r.length < s.length := by
  unfold remasterMatch at h
  split at h
  · split at h
    next r8 h8 =>
      have l8 := litMatch_length h8
      split at h
      next r10 h10 =>
        have l10 := litMatch_length h10
        split at h
        · cases h; simp at l8 l10; omega
        · split at h
          · cases h; simp at l8; omega
          · cases h
      · split at h
        · cases h; simp at l8; omega
        · cases h
    · cases h
  · cases h

theorem yearAt_length : ∀ {s : List Char} {n : Nat} {r : List Char},
    yearAt s = some (n, r) → r.length < s.length := by
  intro s n r h
  match s, h with
  | c1 :: c2 :: c3 :: c4 :: rest, h =>
    simp only [yearAt] at h
    split at h
    · cases h; simp; omega
    · cases h

theorem yearMatch_length {prev : Option Char} {s r : List Char}
    (h : yearMatch prev s = some r) : r.length < s.length := by
  unfold yearMatch at h
  split at h
  · cases hy : yearAt s with
    | none => rw [hy] at h; cases h
    | some p =>
      rw [hy] at h
      cases h
      exact yearAt_length (n := p.1) (by rw [hy])
  · cases h

theorem ordMatch_length {prev : Option Char} {s r : List Char}
    (h : ordMatch prev s = some r) : r.length < s.length := by
  unfold ordMatch at h
  split at h
  · simp only at h
    split at h
    · cases h
    · next hne =>
      split at h
      next a b r2 heq =>
        split at h
        · cases h
          have hsplit : s.takeWhile Char.isDigit ++ s.dropWhile Char.isDigit = s :=
            List.takeWhile_append_dropWhile _ _
          have hlen := congrArg List.length hsplit
          rw [List.length_append] at hlen
          rw [heq] at hlen
          simp only [List.length_cons] at hlen ⊢
          have : (s.takeWhile Char.isDigit).length ≠ 0 := by
            intro h0
            apply hne
            simpa [List.isEmpty_iff, List.length_eq_zero] using h0
          omega
        · cases h
      · cases h
  · cases h

theorem noiseMatch_length {prev : Option Char} {s r : List Char}
    (h : noiseMatch prev s = some r) : r.length < s.length := by
  unfold noiseMatch at h
  cases h1 : remasterMatch prev s with
  | some r' => rw [h1] at h; simp [Option.orElse] at h; cases h; exact remasterMatch_length h1
  | none =>
    rw [h1] at h
    simp only [Option.orElse] at h
    cases h2 : firstWordMatch prev s noiseWordList with
    | some r' =>
      rw [h2] at h; simp at h; cases h
      exact firstWordMatch_length (by decide) h2
    | none =>
      rw [h2] at h
      simp only at h
      cases h3 : yearMatch prev s with
      | some r' => rw [h3] at h; simp at h; cases h; exact yearMatch_length h3
      | none => rw [h3] at h; simp at h; exact ordMatch_length h

/-- Last character consumed by a match that left suffix `rest` of `s`
(needed as the word-boundary context for the continued scan). -/
def lastOf (s rest : List Char) : Char :=
  match (s.take (s.length - rest.length)).getLast? with
  | some c => c
  | none => ' '

/-- Fuel-indexed scanner for `NOISE_RE.sub(" ", text)`: scan left to right
carrying the previous character (the `\b` context); each non-overlapping
match is replaced by one space and scanning resumes after it on the
original text.  Every step strictly shrinks the subject, so fuel equal to
the subject length (supplied by `noiseSub`) never runs out. -/
def noiseSubF : Nat → Option Char → List Char → List Char
  | _, _, [] => []
  | 0, _, s => s
  | f + 1, prev, c :: cs =>
    match noiseMatch prev (c :: cs) with
    | some rest => ' ' :: noiseSubF f (some (lastOf (c :: cs) rest)) rest
    | none => c :: noiseSubF f (some c) cs

/-- Model of `NOISE_RE.sub(" ", text)`. -/
def noiseSub (prev : Option Char) (s : List Char) : List Char := noiseSubF s.length prev s

/-- The character class kept by `re.sub(r"[^a-z0-9\s]", " ", text)`. -/
def keepSym (c : Char) : Bool :=
  ('a' ≤ c && c ≤ 'z') || ('0' ≤ c && c ≤ '9') || pyIsSpace c

/-- Model of `re.sub(r"[^a-z0-9\s]", " ", text)`. -/
def stripSym (s : List Char) : List Char := s.map (fun c => if keepSym c then c else ' ')

/-- Fuel-indexed scanner for Python `text.split()`: maximal runs of
non-whitespace characters.  Every step strictly shrinks the subject, so
fuel equal to the subject length (supplied by `splitWs`) never runs out. -/
def splitWsF : Nat → List Char → List (List Char)
  | _, [] => []
  | 0, _ => []
  | f + 1, c :: cs =>
    if pyIsSpace c then splitWsF f cs
    else ((c :: cs).takeWhile (fun d => !pyIsSpace d))
      :: splitWsF f ((c :: cs).dropWhile (fun d => !pyIsSpace d))

/-- Python `text.split()`. -/
def splitWs (s : List Char) : List (List Char) := splitWsF s.length s

/-- Model of `" ".join(words)`. -/
def joinSp : List (List Char) → List Char
  | [] => []
  | [w] => w
  | w :: ws => w ++ ' ' :: joinSp ws

/-- Model of `" ".join(text.split())`. -/
def collapseWs (s : List Char) : List Char := joinSp (splitWs s)

/-- Model of `normalize(text)` from `limpiar_duplicados_tidal.py` (the identical
function also appears in `mejorar_calidad_tidal.py`): lower-case, strip
`(...)` and `[...]` spans, strip noise tokens, strip non-alphanumerics,
collapse whitespace. -/
def normalize (s : List Char) : List Char :=
  collapseWs (stripSym (noiseSub none (stripDelims '[' ']' (stripDelims '(' ')' (pyLower s)))))

example : normalize "Hotel California (Remastered 2013)".toList = "hotel california".toList := by
  decide

example : normalize "album live version".toList = "album version".toList := by decide

example : normalize "album version".toList = [] := by decide

example : normalize "Live".toList = [] := by decide

example : normalize "1999".toList = [] := by decide

/-! ## Data model: tracks, variant detection and ranking -/

/-- A catalog entry as consumed by the grouping/ranking code: `id`, `name`
(`track.name`, possibly absent), `artist.name` when `track.artist` is
present, `album.name` when `track.album` is present, and the
`audio_quality` string when present. -/
structure Track where
  id : Nat
  name : Option (List Char)
  artist : Option (List Char)
  album : Option (List Char)
  audioQuality : Option (List Char)
deriving DecidableEq, Repr

/-- Python `x or ""` for an optional string (absent and empty both give ""). -/
def orEmpty (o : Option (List Char)) : List Char := o.getD []

/-- Model of `_tag(track)`: the title and the album name joined by one space, each falling back to the empty string. -/
def tagOf (t : Track) : List Char := orEmpty t.name ++ ' ' :: orEmpty t.album

/-- Model of `re.search` driver: try the position matcher at every position, left to
right, carrying the previous character as the `\b` context. -/
def searchScan (m : Option Char → List Char → Option α) : Option Char → List Char → Option α
  | prev, [] => m prev []
  | prev, c :: cs =>
    match m prev (c :: cs) with
    | some a => some a
    | none => searchScan m (some c) cs

/-- Model of `_RE_REMASTER.search`: `\b(?:remaster(?:ed)?|digital remaster)\b`, case
insensitive. -/
def hasRemaster (s : List Char) : Bool :=
  (searchScan (fun p u =>
    (remasterMatch p u).orElse (fun _ => wordMatch "digital remaster".toList p u)) none s).isSome

/-- Model of `re.search` of a single whole-word (or whole-phrase) pattern, case
insensitive: used for `_RE_EXPLICIT`, `_RE_CLEAN`, `_RE_STEREO`, `_RE_MONO`,
`_RE_ALBUM_VER`, `_RE_SINGLE_VER`. -/
def hasWord (w : List Char) (s : List Char) : Bool := (searchScan (wordMatch w) none s).isSome

/-- Model of `_RE_YEAR.search(tag)` with `int(m.group(0))`: value of the first
`\b(19|20)\d{2}\b` match. -/
def firstYear (s : List Char) : Option Nat :=
  searchScan (fun p u => if prevOk p then (yearAt u).map (fun q => q.1) else none) none s

/-- Model of `_remaster_year(track)`: `-1` when the tag has no remaster marker, else
the first embedded four-digit year, else `0`. -/
def remaster_year (t : Track) : Int :=
  if hasRemaster (tagOf t) then
    match firstYear (tagOf t) with
    | some y => (y : Int)
    | none => 0
  else -1

/-- Component 2 of `version_priority`: explicit `1`, else clean `-1`, else `0`. -/
def explicit_score (t : Track) : Int :=
  if hasWord "explicit".toList (tagOf t) then 1
  else if hasWord "clean".toList (tagOf t) then -1
  else 0

/-- Component 3 of `version_priority`: stereo `1`, mono `-1`, unmarked `0`. -/
def stereo_score (t : Track) : Int :=
  if hasWord "stereo".toList (tagOf t) then 1
  else if hasWord "mono".toList (tagOf t) then -1
  else 0

/-- Component 4 of `version_priority`: album version `1`, single version
`-1`, unmarked `0`. -/
def album_score (t : Track) : Int :=
  if hasWord "album version".toList (tagOf t) then 1
  else if hasWord "single version".toList (tagOf t) then -1
  else 0

/-- Model of `version_priority(track)`: the tie-break tuple
`(remaster_score, explicit_score, stereo_score, album_score, id_score)`. -/
def version_priority (t : Track) : Int × Int × Int × Int × Int :=
  (remaster_year t, explicit_score t, stereo_score t, album_score t, (t.id : Int))

/-- Model of `get_quality(track)`: the upper-cased audio-quality string, `"UNKNOWN"`
when absent. -/
def get_quality (t : Track) : List Char :=
  match t.audioQuality with
  | none => "UNKNOWN".toList
  | some q => pyUpper q

/-- The `QUALITY_RANK` table (identical in both scripts). -/
def QUALITY_RANK : List (List Char × Nat) :=
  [("HI_RES_LOSSLESS", 5), ("HI_RES", 4), ("LOSSLESS", 3), ("HIGH", 2), ("LOW", 1)].map
    (fun p => (p.1.toList, p.2))

/-- Model of `QUALITY_RANK.get(q, 0)`. -/
def lookupRank : List (List Char × Nat) → List Char → Nat
  | [], _ => 0
  | (k, v) :: rest, q => if q = k then v else lookupRank rest q

/-- Model of `quality_rank(track)` (identical in both scripts). -/
def quality_rank (t : Track) : Nat := lookupRank QUALITY_RANK (get_quality t)

/-- The `sort_key` closure of `find_duplicates`:
`(-qr, -vp[0], -vp[1], -vp[2], -vp[3], vp[4])`, as a 6-element list. -/
def sort_key (t : Track) : List Int :=
  [-(quality_rank t : Int), -(remaster_year t), -(explicit_score t), -(stereo_score t),
   -(album_score t), (t.id : Int)]

/-- The composite preference key described by the spec (most-significant
first, all "higher is better", smaller identifier better): the negation of
`sort_key`. -/
def compositeKey (t : Track) : List Int :=
  [(quality_rank t : Int), remaster_year t, explicit_score t, stereo_score t,
   album_score t, -(t.id : Int)]

/-- Lexicographic strict order on key lists: Python tuple `<`. -/
def lexLt : List Int → List Int → Bool
  | _, [] => false
  | [], _ :: _ => true
  | a :: as, b :: bs => if a < b then true else if a = b then lexLt as bs else false

/-- Total preorder induced by `lexLt`, the comparison a stable sort by
`lexLt`-keys uses. -/
def lexLe (x y : List Int) : Bool := !lexLt y x

/-- One step of stable insertion sort: place `x` before the first element
it compares `≤` to, i.e. after every earlier-listed element that is not
strictly greater. -/
def insertLe (le : α → α → Bool) (x : α) : List α → List α
  | [] => [x]
  | y :: ys => if le x y then x :: y :: ys else y :: insertLe le x ys

/-- Stable insertion sort: the unique stable sort by `le`, hence the same
output as Python's stable `list.sort`. -/
def isort (le : α → α → Bool) : List α → List α
  | [] => []
  | x :: xs => insertLe le x (isort le xs)

/-- Model of `sort_key`-comparison between tracks (ascending sort on these keys). -/
def trackLe (a b : Track) : Bool := lexLe (sort_key a) (sort_key b)

/-- Model of `v.sort(key=sort_key)`: stable ascending sort on `sort_key`. -/
def sortGroup (g : List Track) : List Track := isort trackLe g

/-- The grouping artist string: `track.artist.name if track.artist else "desconocido"`. -/
def artistName (t : Track) : List Char :=
  match t.artist with
  | some a => a
  | none => "desconocido".toList

/-- The normalized `(artist, title)` grouping key of `find_duplicates`. -/
def trackKey (t : Track) : List Char × List Char :=
  (normalize (artistName t), normalize (orEmpty t.name))

/-- Append a track to its key's bucket, preserving first-insertion key
order (Python `defaultdict` + dict iteration order). -/
def addToGroups :
    List ((List Char × List Char) × List Track) → (List Char × List Char) → Track →
      List ((List Char × List Char) × List Track)
  | [], k, t => [(k, [t])]
  | (k', v) :: rest, k, t =>
    if k' = k then (k', v ++ [t]) :: rest else (k', v) :: addToGroups rest k t

/-- The `groups` dictionary built by `find_duplicates`. -/
def groupByKey (ts : List Track) : List ((List Char × List Char) × List Track) :=
  ts.foldl (fun gs t => addToGroups gs (trackKey t) t) []

/-- Model of `find_duplicates(tracks)`: keep only buckets with more than one track,
each sorted by `sort_key` (best first). -/
def find_duplicates (ts : List Track) : List ((List Char × List Char) × List Track) :=
  (groupByKey ts).filterMap (fun kv =>
    if 1 < kv.2.length then some (kv.1, sortGroup kv.2) else none)

/-- The tracks a removal round would delete: every group member after
position 0 (`extras = group[1:]` in `remove_duplicates_round`). -/
def removalsOf (ts : List Track) : List Track :=
  (find_duplicates ts).foldr (fun kv acc => kv.2.drop 1 ++ acc) []

/-! ## Order-theoretic facts about the composite ranking -/

theorem lexLt_irrefl : ∀ x : List Int, lexLt x x = false := by
  intro x
  induction x with
  | nil => rfl
  | cons a as ih => simp [lexLt, ih]

theorem lexLt_trans : ∀ {x y z : List Int}, lexLt x y = true → lexLt y z = true →
    lexLt x z = true := by
  intro x
  induction x with
  | nil =>
    intro y z hxy hyz
    cases y with
    | nil => exact hyz
    | cons b bs => cases z with
      | nil => simp [lexLt] at hyz
      | cons c cs => simp [lexLt]
  | cons a as ih =>
    intro y z hxy hyz
    cases y with
    | nil => simp [lexLt] at hxy
    | cons b bs =>
      cases z with
      | nil => simp [lexLt] at hyz
      | cons c cs =>
        simp only [lexLt] at hxy hyz ⊢
        split at hxy
        · next hab =>
          split at hyz
          · next hbc => rw [if_pos (lt_trans hab hbc)]
          · split at hyz
            · next hbc => subst hbc; rw [if_pos hab]
            · cases hyz
        · split at hxy
          · next hab =>
            subst hab
            split at hyz
            · next hbc => rw [if_pos hbc]
            · split at hyz
              · next hbc => subst hbc; rw [if_neg (lt_irrefl a), if_pos rfl]; exact ih hxy hyz
              · cases hyz
          · cases hxy

theorem lexLt_trichotomy : ∀ x y : List Int, lexLt x y = true ∨ x = y ∨ lexLt y x = true := by
  intro x
  induction x with
  | nil =>
    intro y
    cases y with
    | nil => right; left; rfl
    | cons b bs => left; rfl
  | cons a as ih =>
    intro y
    cases y with
    | nil => right; right; rfl
    | cons b bs =>
      rcases lt_trichotomy a b with hab | hab | hab
      · left; simp [lexLt, hab]
      · subst hab
        rcases ih bs with h | h | h
        · left; simp [lexLt, lt_irrefl, h]
        · right; left; rw [h]
        · right; right; simp [lexLt, lt_irrefl, h]
      · right; right; simp [lexLt, hab]

theorem lexLt_asymm : ∀ {x y : List Int}, lexLt x y = true → lexLt y x = false := by
  intro x y hxy
  by_contra h
  rw [Bool.not_eq_false] at h
  have := lexLt_trans hxy h
  rw [lexLt_irrefl] at this
  cases this

theorem lexLe_refl (x : List Int) : lexLe x x = true := by
  simp [lexLe, lexLt_irrefl]

theorem lexLe_total : ∀ x y : List Int, lexLe x y = true ∨ lexLe y x = true := by
  intro x y
  rcases lexLt_trichotomy x y with h | h | h
  · left; simp [lexLe, lexLt_asymm h]
  · subst h; left; exact lexLe_refl x
  · right; simp [lexLe, lexLt_asymm h]

theorem lexLe_trans : ∀ {x y z : List Int}, lexLe x y = true → lexLe y z = true →
    lexLe x z = true := by
  intro x y z hxy hyz
  simp only [lexLe, Bool.not_eq_true'] at hxy hyz ⊢
  by_contra h
  rw [Bool.not_eq_false] at h
  rcases lexLt_trichotomy x y with h1 | h1 | h1
  · rw [lexLt_trans h h1] at hyz; cases hyz
  · subst h1; rw [h] at hyz; cases hyz
  · rw [h1] at hxy; cases hxy

theorem lexLt_neg : ∀ x y : List Int, x.length = y.length →
    lexLt (x.map (fun z => -z)) (y.map (fun z => -z)) = lexLt y x := by
  intro x
  induction x with
  | nil =>
    intro y hy
    cases y with
    | nil => rfl
    | cons b bs => simp at hy
  | cons a as ih =>
    intro y hy
    cases y with
    | nil => simp at hy
    | cons b bs =>
      simp only [List.map_cons, lexLt, neg_lt_neg_iff, neg_inj]
      by_cases h1 : b < a
      · simp [h1]
      · by_cases h2 : a = b
        · subst h2
          simp only [List.length_cons, Nat.add_right_cancel_iff] at hy
          simp [h1, ih bs hy]
        · have h2' : ¬b = a := fun h => h2 h.symm
          simp [h1, h2, h2']

/-- The `sort_key` list is the componentwise negation of the composite preference key. -/
theorem sort_key_eq_neg_composite (t : Track) :
    sort_key t = (compositeKey t).map (fun z => -z) := by
  simp [sort_key, compositeKey]

theorem trackLe_comp (a b : Track) :
    trackLe a b = lexLe (compositeKey b) (compositeKey a) := by
  have hlen : (compositeKey b).length = (compositeKey a).length := rfl
  simp only [trackLe, lexLe, sort_key_eq_neg_composite, lexLt_neg _ _ hlen]

theorem sort_key_eq_imp_id (a b : Track) (h : sort_key a = sort_key b) : a.id = b.id := by
  simp only [sort_key, List.cons.injEq, and_true] at h
  have := h.2.2.2.2.2
  omega

/-! ## Stable insertion sort: permutation and sortedness -/

theorem mem_insertLe {le : α → α → Bool} {x a : α} :
    ∀ {l : List α}, a ∈ insertLe le x l ↔ a = x ∨ a ∈ l := by
  intro l
  induction l with
  | nil => simp [insertLe]
  | cons y ys ih =>
    simp only [insertLe]
    split
    · simp [List.mem_cons]
    · simp only [List.mem_cons, ih]
      tauto

theorem perm_insertLe (le : α → α → Bool) (x : α) :
    ∀ l : List α, List.Perm (insertLe le x l) (x :: l) := by
  intro l
  induction l with
  | nil => exact List.Perm.refl _
  | cons y ys ih =>
    simp only [insertLe]
    split
    · exact List.Perm.refl _
    · exact (List.Perm.cons y ih).trans (List.Perm.swap x y ys)

theorem perm_isort (le : α → α → Bool) : ∀ l : List α, List.Perm (isort le l) l := by
  intro l
  induction l with
  | nil => exact List.Perm.refl _
  | cons x xs ih => exact (perm_insertLe le x (isort le xs)).trans (List.Perm.cons x ih)

theorem pairwise_insertLe {le : α → α → Bool}
    (htrans : ∀ a b c, le a b = true → le b c = true → le a c = true)
    (htotal : ∀ a b, le a b = true ∨ le b a = true) (x : α) :
    ∀ {l : List α}, l.Pairwise (fun a b => le a b = true) →
      (insertLe le x l).Pairwise (fun a b => le a b = true) := by
  intro l
  induction l with
  | nil => intro _; simp [insertLe]
  | cons y ys ih =>
    intro hp
    rw [List.pairwise_cons] at hp
    obtain ⟨hy, hys⟩ := hp
    simp only [insertLe]
    split
    · next hxy =>
      refine List.Pairwise.cons ?_ (List.Pairwise.cons hy hys)
      intro z hz
      rcases List.mem_cons.mp hz with rfl | hz
      · exact hxy
      · exact htrans _ _ _ hxy (hy z hz)
    · next hxy =>
      refine List.Pairwise.cons ?_ (ih hys)
      intro z hz
      rcases mem_insertLe.mp hz with hzx | hz
      · rw [hzx]
        rcases htotal x y with h | h
        · exact absurd h hxy
        · exact h
      · exact hy z hz

theorem pairwise_isort {le : α → α → Bool}
    (htrans : ∀ a b c, le a b = true → le b c = true → le a c = true)
    (htotal : ∀ a b, le a b = true ∨ le b a = true) :
    ∀ l : List α, (isort le l).Pairwise (fun a b => le a b = true) := by
  intro l
  induction l with
  | nil => exact List.Pairwise.nil
  | cons x xs ih => exact pairwise_insertLe htrans htotal x ih

theorem trackLe_trans : ∀ a b c : Track, trackLe a b = true → trackLe b c = true →
    trackLe a c = true := fun _ _ _ hab hbc => lexLe_trans hab hbc

theorem trackLe_total : ∀ a b : Track, trackLe a b = true ∨ trackLe b a = true :=
  fun a b => lexLe_total (sort_key a) (sort_key b)

/-! ## Structure of `find_duplicates` groups -/

theorem addToGroups_key_prop :
    ∀ (gs : List ((List Char × List Char) × List Track)) (k : List Char × List Char)
      (t : Track),
      (∀ kv ∈ gs, ∀ u ∈ kv.2, trackKey u = kv.1) → trackKey t = k →
      ∀ kv ∈ addToGroups gs k t, ∀ u ∈ kv.2, trackKey u = kv.1 := by
  intro gs
  induction gs with
  | nil =>
    intro k t _ ht kv hkv u hu
    simp only [addToGroups, List.mem_singleton] at hkv
    subst hkv
    simp only [List.mem_singleton] at hu
    subst hu
    exact ht
  | cons kv0 rest ih =>
    intro k t hgs ht kv hkv u hu
    obtain ⟨k0, v0⟩ := kv0
    simp only [addToGroups] at hkv
    split at hkv
    · next hk0 =>
      subst hk0
      rcases List.mem_cons.mp hkv with rfl | hkv
      · rcases List.mem_append.mp hu with hu | hu
        · exact hgs (k0, v0) (by simp) u hu
        · simp only [List.mem_singleton] at hu
          subst hu
          exact ht
      · exact hgs kv (List.mem_cons_of_mem _ hkv) u hu
    · rcases List.mem_cons.mp hkv with rfl | hkv
      · exact hgs (k0, v0) (by simp) u hu
      · exact ih k t (fun kv' h' => hgs kv' (List.mem_cons_of_mem _ h')) ht kv hkv u hu

theorem groupByKey_key_prop (ts : List Track) :
    ∀ kv ∈ groupByKey ts, ∀ u ∈ kv.2, trackKey u = kv.1 := by
  have main : ∀ (ts : List Track) (gs : List ((List Char × List Char) × List Track)),
      (∀ kv ∈ gs, ∀ u ∈ kv.2, trackKey u = kv.1) →
      ∀ kv ∈ ts.foldl (fun gs t => addToGroups gs (trackKey t) t) gs,
        ∀ u ∈ kv.2, trackKey u = kv.1 := by
    intro ts
    induction ts with
    | nil => intro gs hgs kv hkv; exact hgs kv hkv
    | cons t ts ih =>
      intro gs hgs kv hkv
      exact ih _ (addToGroups_key_prop gs (trackKey t) t hgs rfl) kv hkv
  exact main ts [] (by simp)

theorem mem_find_duplicates {ts : List Track} {k : List Char × List Char}
    {g : List Track} (h : (k, g) ∈ find_duplicates ts) :
    ∃ v, (k, v) ∈ groupByKey ts ∧ 1 < v.length ∧ g = sortGroup v := by
  unfold find_duplicates at h
  rw [List.mem_filterMap] at h
  obtain ⟨kv, hkv, hf⟩ := h
  by_cases hlen : 1 < kv.2.length
  · rw [if_pos hlen] at hf
    injection hf with hf
    have h1 : kv.1 = k := congrArg Prod.fst hf
    have h2 : sortGroup kv.2 = g := congrArg Prod.snd hf
    refine ⟨kv.2, ?_, hlen, h2.symm⟩
    rw [← h1, Prod.mk.eta]
    exact hkv
  · rw [if_neg hlen] at hf
    cases hf

/-! ## Structure of `normalize`'s output (for the idempotence analysis) -/

theorem charLeNat {a c : Char} (h : decide (a ≤ c) = true) : a.toNat ≤ c.toNat :=
  of_decide_eq_true h

theorem charNeOfNat {a c : Char} (h : c.toNat ≠ a.toNat) : c ≠ a :=
  fun he => h (congrArg Char.toNat he)

/-- The non-space characters `normalize` can emit. -/
def goodOut (c : Char) : Bool := ('a' ≤ c && c ≤ 'z') || ('0' ≤ c && c ≤ '9')

theorem goodOut_facts {c : Char} (h : c = ' ' ∨ goodOut c = true) :
    pyLowerChar c = c ∧ c ≠ '(' ∧ c ≠ '[' ∧ keepSym c = true := by
  rcases h with rfl | h
  · refine ⟨by decide, by decide, by decide, by decide⟩
  · rw [goodOut, Bool.or_eq_true, Bool.and_eq_true, Bool.and_eq_true] at h
    have hn : (97 ≤ c.toNat ∧ c.toNat ≤ 122) ∨ (48 ≤ c.toNat ∧ c.toNat ≤ 57) := by
      rcases h with ⟨hl, hr⟩ | ⟨hl, hr⟩
      · exact Or.inl ⟨charLeNat hl, charLeNat hr⟩
      · exact Or.inr ⟨charLeNat hl, charLeNat hr⟩
    refine ⟨?_, ?_, ?_, ?_⟩
    · unfold pyLowerChar
      rw [if_neg]
      intro hup
      rw [Bool.and_eq_true] at hup
      have h1 : ('A').toNat ≤ c.toNat := charLeNat hup.1
      have h2 : c.toNat ≤ ('Z').toNat := charLeNat hup.2
      simp only [show ('A').toNat = 65 from rfl, show ('Z').toNat = 90 from rfl] at h1 h2
      omega
    · exact charNeOfNat (by simp only [show ('(').toNat = 40 from rfl]; omega)
    · exact charNeOfNat (by simp only [show ('[').toNat = 91 from rfl]; omega)
    · unfold keepSym
      rcases h with ⟨hl, hr⟩ | ⟨hl, hr⟩
      · simp [hl, hr]
      · simp [hl, hr]

theorem map_id_of {f : Char → Char} :
    ∀ {l : List Char}, (∀ c ∈ l, f c = c) → l.map f = l := by
  intro l
  induction l with
  | nil => intro _; rfl
  | cons c cs ih =>
    intro h
    simp only [List.map_cons]
    rw [h c (by simp), ih (fun d hd => h d (by simp [hd]))]

theorem takeWhile_all {p : Char → Bool} :
    ∀ {w : List Char}, (∀ c ∈ w, p c = true) → w.takeWhile p = w := by
  intro w
  induction w with
  | nil => intro _; rfl
  | cons c cs ih =>
    intro h
    rw [List.takeWhile_cons, if_pos (h c (by simp)), ih (fun d hd => h d (by simp [hd]))]

theorem dropWhile_all {p : Char → Bool} :
    ∀ {w : List Char}, (∀ c ∈ w, p c = true) → w.dropWhile p = [] := by
  intro w
  induction w with
  | nil => intro _; rfl
  | cons c cs ih =>
    intro h
    rw [List.dropWhile_cons_of_pos (h c (by simp)), ih (fun d hd => h d (by simp [hd]))]

theorem takeWhile_append_stop {p : Char → Bool} {x : Char} {r : List Char}
    (hx : p x = false) :
    ∀ {w : List Char}, (∀ c ∈ w, p c = true) →
      (w ++ x :: r).takeWhile p = w ∧ (w ++ x :: r).dropWhile p = x :: r := by
  intro w
  induction w with
  | nil =>
    intro _
    constructor
    · rw [List.nil_append, List.takeWhile_cons, if_neg (by simp [hx])]
    · rw [List.nil_append, List.dropWhile_cons_of_neg (by simp [hx])]
  | cons c cs ih =>
    intro h
    have hrec := ih (fun d hd => h d (by simp [hd]))
    constructor
    · rw [List.cons_append, List.takeWhile_cons, if_pos (h c (by simp)), hrec.1]
    · rw [List.cons_append, List.dropWhile_cons_of_pos (h c (by simp)), hrec.2]

theorem splitWsF_mem : ∀ (f : Nat) (s : List Char), ∀ w ∈ splitWsF f s,
    w ≠ [] ∧ ∀ c ∈ w, pyIsSpace c = false ∧ c ∈ s := by
  intro f
  induction f with
  | zero =>
    intro s w hw
    cases s <;> simp [splitWsF] at hw
  | succ f ih =>
    intro s w hw
    cases s with
    | nil => simp [splitWsF] at hw
    | cons c cs =>
      simp only [splitWsF] at hw
      split at hw
      · next hsp =>
        obtain ⟨h1, h2⟩ := ih cs w hw
        exact ⟨h1, fun d hd => ⟨(h2 d hd).1, List.mem_cons_of_mem _ (h2 d hd).2⟩⟩
      · next hsp =>
        have hc : pyIsSpace c = false := by
          rw [Bool.not_eq_true] at hsp; exact hsp
        rcases List.mem_cons.mp hw with h1 | h1
        · constructor
          · rw [h1, List.takeWhile_cons, if_pos (by simp [hc])]
            simp
          · intro d hd
            rw [h1] at hd
            have hdp := List.mem_takeWhile_imp hd
            have hdm : d ∈ c :: cs := List.Sublist.mem hd (List.takeWhile_sublist _)
            exact ⟨by simpa using hdp, hdm⟩
        · obtain ⟨h2, h3⟩ := ih _ w h1
          refine ⟨h2, fun d hd => ⟨(h3 d hd).1, ?_⟩⟩
          exact List.Sublist.mem (h3 d hd).2 (List.dropWhile_sublist _)

theorem mem_splitWs {s w : List Char} (hw : w ∈ splitWs s) :
    w ≠ [] ∧ ∀ c ∈ w, pyIsSpace c = false ∧ c ∈ s :=
  splitWsF_mem s.length s w hw

theorem joinSp_cons₂ (w w2 : List Char) (ws : List (List Char)) :
    joinSp (w :: w2 :: ws) = w ++ ' ' :: joinSp (w2 :: ws) := rfl

theorem splitWsF_nil : ∀ f : Nat, splitWsF f [] = [] := by
  intro f
  cases f <;> rfl

theorem mem_joinSp : ∀ {ws : List (List Char)} {c : Char},
    c ∈ joinSp ws → c = ' ' ∨ ∃ w ∈ ws, c ∈ w := by
  intro ws
  induction ws with
  | nil => intro c h; simp [joinSp] at h
  | cons w ws ih =>
    intro c h
    cases ws with
    | nil => exact Or.inr ⟨w, by simp, h⟩
    | cons w2 ws2 =>
      rw [joinSp_cons₂] at h
      rcases List.mem_append.mp h with h1 | h1
      · exact Or.inr ⟨w, by simp, h1⟩
      · rcases List.mem_cons.mp h1 with h2 | h2
        · exact Or.inl h2
        · rcases ih h2 with h3 | ⟨w', hw', hc⟩
          · exact Or.inl h3
          · exact Or.inr ⟨w', by simp [hw'], hc⟩

theorem splitWsF_joinSp : ∀ (ws : List (List Char)) (f : Nat),
    (joinSp ws).length ≤ f →
    (∀ w ∈ ws, w ≠ [] ∧ ∀ c ∈ w, pyIsSpace c = false) →
    splitWsF f (joinSp ws) = ws := by
  intro ws
  induction ws with
  | nil =>
    intro f _ _
    cases f <;> rfl
  | cons w ws ih =>
    intro f hf hgood
    obtain ⟨hne, hchars⟩ := hgood w (by simp)
    obtain ⟨c, w', rfl⟩ : ∃ c w', w = c :: w' := by
      cases w with
      | nil => exact absurd rfl hne
      | cons c w' => exact ⟨c, w', rfl⟩
    have hcsp : pyIsSpace c = false := hchars c (by simp)
    cases ws with
    | nil =>
      show splitWsF f (joinSp [c :: w']) = [c :: w']
      have hj : joinSp [c :: w'] = c :: w' := rfl
      rw [hj] at hf ⊢
      cases f with
      | zero => simp at hf
      | succ f =>
        simp only [splitWsF]
        rw [if_neg (by simp [hcsp])]
        rw [takeWhile_all (fun d hd => by simp [hchars d hd]),
          dropWhile_all (fun d hd => by simp [hchars d hd]), splitWsF_nil]
    | cons w2 ws2 =>
      rw [joinSp_cons₂] at hf ⊢
      cases f with
      | zero => simp at hf
      | succ f =>
        rw [List.cons_append]
        simp only [splitWsF]
        rw [if_neg (by simp [hcsp])]
        rw [← List.cons_append]
        have hstop := takeWhile_append_stop (p := fun d => !pyIsSpace d)
          (x := ' ') (r := joinSp (w2 :: ws2)) (by decide)
          (w := c :: w') (fun d hd => by simp [hchars d hd])
        rw [hstop.1, hstop.2]
        simp only [List.length_append, List.length_cons] at hf
        cases f with
        | zero => omega
        | succ f2 =>
          have hsp2 : splitWsF (f2 + 1) (' ' :: joinSp (w2 :: ws2))
              = splitWsF f2 (joinSp (w2 :: ws2)) := by
            simp only [splitWsF]
            rw [if_pos (by decide)]
          rw [hsp2, ih f2 (by omega) (fun u hu => hgood u (by simp [hu]))]

theorem splitWs_joinSp (ws : List (List Char))
    (hgood : ∀ w ∈ ws, w ≠ [] ∧ ∀ c ∈ w, pyIsSpace c = false) :
    splitWs (joinSp ws) = ws :=
  splitWsF_joinSp ws (joinSp ws).length le_rfl hgood

theorem stripSym_chars {u : List Char} {c : Char} (h : c ∈ stripSym u) :
    keepSym c = true := by
  unfold stripSym at h
  rw [List.mem_map] at h
  obtain ⟨d, _, hd⟩ := h
  by_cases hk : keepSym d = true
  · rw [if_pos hk] at hd
    rw [← hd]
    exact hk
  · rw [if_neg hk] at hd
    rw [← hd]
    decide

theorem normalize_chars (s : List Char) : ∀ c ∈ normalize s, c = ' ' ∨ goodOut c = true := by
  intro c hc
  unfold normalize collapseWs at hc
  rcases mem_joinSp hc with h | ⟨w, hw, hcw⟩
  · exact Or.inl h
  · right
    obtain ⟨_, hmem⟩ := mem_splitWs hw
    obtain ⟨hnsp, hin⟩ := hmem c hcw
    have hk := stripSym_chars hin
    unfold keepSym at hk
    rcases Bool.or_eq_true .. |>.mp hk with h1 | h1
    · unfold goodOut
      exact h1
    · rw [h1] at hnsp
      cases hnsp

theorem stripDelimsF_id (o cl : Char) : ∀ (f : Nat) (s : List Char), s.length ≤ f →
    (∀ c ∈ s, c ≠ o) → stripDelimsF o cl f s = s := by
  intro f
  induction f with
  | zero =>
    intro s hs _
    cases s with
    | nil => rfl
    | cons c cs => simp at hs
  | succ f ih =>
    intro s hs hno
    cases s with
    | nil => rfl
    | cons c cs =>
      simp only [stripDelimsF]
      rw [if_neg (hno c (by simp))]
      rw [ih cs (by simp at hs; omega) (fun d hd => hno d (by simp [hd]))]

theorem stripDelims_id (o cl : Char) (s : List Char) (h : ∀ c ∈ s, c ≠ o) :
    stripDelims o cl s = s :=
  stripDelimsF_id o cl s.length s le_rfl h

theorem pyLower_id (s : List Char) (h : ∀ c ∈ s, pyLowerChar c = c) : pyLower s = s :=
  map_id_of h

theorem stripSym_id (s : List Char) (h : ∀ c ∈ s, keepSym c = true) : stripSym s = s := by
  unfold stripSym
  apply map_id_of
  intro c hc
  rw [if_pos (h c hc)]

theorem collapseWs_normalize (s : List Char) : collapseWs (normalize s) = normalize s := by
  have hgood : ∀ w ∈ splitWs (stripSym (noiseSub none (stripDelims '[' ']'
      (stripDelims '(' ')' (pyLower s))))), w ≠ [] ∧ ∀ c ∈ w, pyIsSpace c = false :=
    fun w hw => ⟨(mem_splitWs hw).1, fun c hc => ((mem_splitWs hw).2 c hc).1⟩
  show collapseWs (collapseWs _) = collapseWs _
  unfold collapseWs
  rw [splitWs_joinSp _ hgood]

/-! ## Claim C3 -/

/-- C3 counterexample: `normalize` is not idempotent.  Removing the noise
word "live" from "album live version" exposes the noise phrase
"album version", which only a second application removes. -/
theorem normalize_not_idempotent :
    ¬(normalize (normalize "album live version".toList) =
      normalize "album live version".toList) := by decide

/-- C3 (amended): `normalize` is idempotent on every input whose normalized
form the noise-removal pass leaves unchanged (no noise-token occurrence
survives in it); re-normalizing can shrink the key further only when
removing one noise token has exposed another. -/
theorem normalize_idempotent_of_noiseFree :
    ∀ s : List Char, noiseSub none (normalize s) = normalize s →
      normalize (normalize s) = normalize s := by
  intro s hnf
  have hfix : ∀ c ∈ normalize s, pyLowerChar c = c ∧ c ≠ '(' ∧ c ≠ '[' ∧ keepSym c = true :=
    fun c hc => goodOut_facts (normalize_chars s c hc)
  have hstep : normalize (normalize s) = collapseWs (stripSym (noiseSub none
      (stripDelims '[' ']' (stripDelims '(' ')' (pyLower (normalize s)))))) := rfl
  rw [hstep, pyLower_id _ (fun c hc => (hfix c hc).1),
    stripDelims_id _ _ _ (fun c hc => (hfix c hc).2.1),
    stripDelims_id _ _ _ (fun c hc => (hfix c hc).2.2.1),
    hnf,
    stripSym_id _ (fun c hc => (hfix c hc).2.2.2)]
  exact collapseWs_normalize s

/-- Witness for the amended C3 at a concrete input: the spec's own example
normalizes to a noise-free key and is indeed a fixpoint. -/
theorem normalize_idempotent_of_noiseFree_witness :
    noiseSub none (normalize "Hotel California (Remastered 2013)".toList) =
        normalize "Hotel California (Remastered 2013)".toList ∧
      normalize (normalize "Hotel California (Remastered 2013)".toList) =
        normalize "Hotel California (Remastered 2013)".toList :=
  ⟨by decide, normalize_idempotent_of_noiseFree _ (by decide)⟩

/-! ## Claim C1 -/

/-- C1: every group returned by `find_duplicates` has at least two members,
all sharing the group's normalized (artist, title) key, and the member at
position 0 (the keeper) is lexicographically greatest under the composite
key (quality-tier rank with unknown below all known tiers, remaster score,
explicit/clean, stereo/mono, album/single version, then negated identifier
so the smaller identifier wins the final tie-break): every group member's
composite key is `lexLe` the keeper's.  Since the order is lexicographic, a
strictly higher quality tier dominates all later components. -/
theorem find_duplicates_keeper_greatest :
    ∀ (ts : List Track) (k : List Char × List Char) (g : List Track),
      (k, g) ∈ find_duplicates ts →
      2 ≤ g.length ∧ (∀ t ∈ g, trackKey t = k) ∧
        ∃ h tl, g = h :: tl ∧ ∀ t ∈ g, lexLe (compositeKey t) (compositeKey h) = true := by
  intro ts k g hmem
  obtain ⟨v, hv, hlen, hg⟩ := mem_find_duplicates hmem
  have hperm : List.Perm g v := by rw [hg]; exact perm_isort trackLe v
  refine ⟨?_, ?_, ?_⟩
  · rw [hperm.length_eq]; omega
  · intro t ht
    exact groupByKey_key_prop ts (k, v) hv t (hperm.subset ht)
  · have hpw : g.Pairwise (fun a b => trackLe a b = true) := by
      rw [hg]; exact pairwise_isort trackLe_trans trackLe_total v
    cases g with
    | nil =>
      have := hperm.length_eq
      simp at this
      omega
    | cons h0 tl =>
      refine ⟨h0, tl, rfl, ?_⟩
      intro t ht
      rcases List.mem_cons.mp ht with h1 | h1
      · rw [h1]
        exact lexLe_refl _
      · rw [← trackLe_comp]
        exact (List.pairwise_cons.mp hpw).1 t h1

def cwHotelLossless : Track :=
  ⟨10, some "Hotel California".toList, some "Eagles".toList, none, some "LOSSLESS".toList⟩

def cwHotelRemaster : Track :=
  ⟨11, some "Hotel California (Remastered 2013)".toList, some "Eagles".toList, none,
    some "HIGH".toList⟩

/-- Witness for C1 at a concrete input: a LOSSLESS non-remaster and a HIGH
"Remastered 2013" copy of the same song group together and the LOSSLESS one
is the keeper. -/
theorem find_duplicates_keeper_greatest_witness :
    2 ≤ ([cwHotelLossless, cwHotelRemaster] : List Track).length ∧
      (∀ t ∈ [cwHotelLossless, cwHotelRemaster],
        trackKey t = ("eagles".toList, "hotel california".toList)) ∧
      ∃ h tl, [cwHotelLossless, cwHotelRemaster] = h :: tl ∧
        ∀ t ∈ [cwHotelLossless, cwHotelRemaster],
          lexLe (compositeKey t) (compositeKey h) = true :=
  find_duplicates_keeper_greatest [cwHotelLossless, cwHotelRemaster]
    ("eagles".toList, "hotel california".toList) [cwHotelLossless, cwHotelRemaster]
    (by decide)

/-! ## Claim C2 -/

/-- C2: the strict comparison induced by `sort_key` is transitive and
asymmetric, and any two tracks with distinct identifiers are strictly
ordered — a strict total order with no unresolved ties, so sorting a group
is deterministic with a single strict winner. -/
theorem ranking_strict_total_order :
    (∀ a b c : Track, lexLt (sort_key a) (sort_key b) = true →
        lexLt (sort_key b) (sort_key c) = true → lexLt (sort_key a) (sort_key c) = true) ∧
    (∀ a b : Track, lexLt (sort_key a) (sort_key b) = true →
        lexLt (sort_key b) (sort_key a) = false) ∧
    (∀ a b : Track, a.id ≠ b.id →
        lexLt (sort_key a) (sort_key b) = true ∨ lexLt (sort_key b) (sort_key a) = true) := by
  refine ⟨fun a b c hab hbc => lexLt_trans hab hbc, fun a b h => lexLt_asymm h, ?_⟩
  intro a b hid
  rcases lexLt_trichotomy (sort_key a) (sort_key b) with h | h | h
  · left; exact h
  · exact absurd (sort_key_eq_imp_id a b h) hid
  · right; exact h

def cwOrd1 : Track := ⟨1, some "Song".toList, some "Band".toList, none, none⟩

def cwOrd2 : Track := ⟨2, some "Song".toList, some "Band".toList, none, none⟩

def cwOrd3 : Track := ⟨3, some "Song".toList, some "Band".toList, none, none⟩

/-- Witness for C2 at concrete inputs: three identical tracks differing
only in identifier are totally and transitively ordered. -/
theorem ranking_strict_total_order_witness :
    lexLt (sort_key cwOrd1) (sort_key cwOrd3) = true ∧
      lexLt (sort_key cwOrd2) (sort_key cwOrd1) = false ∧
      (lexLt (sort_key cwOrd1) (sort_key cwOrd2) = true ∨
        lexLt (sort_key cwOrd2) (sort_key cwOrd1) = true) :=
  ⟨ranking_strict_total_order.1 cwOrd1 cwOrd2 cwOrd3 (by decide) (by decide),
   ranking_strict_total_order.2.1 cwOrd1 cwOrd2 (by decide),
   ranking_strict_total_order.2.2 cwOrd1 cwOrd2 (by decide)⟩

/-! ## Claim C10 -/

def cwLive : Track := ⟨1, some "Live".toList, some "Prince".toList, none, none⟩

def cw1999 : Track := ⟨2, some "1999".toList, some "Prince".toList, none, none⟩

/-- C10: the distinct non-empty titles "Live" (a noise word) and "1999" (a
bare year) both normalize to the empty string, so two different songs by
the same artist carrying these titles share a normalized key, are grouped
as duplicates by `find_duplicates`, and the non-keeper is slated for
removal. -/
theorem noise_only_titles_collide :
    normalize "Live".toList = [] ∧ normalize "1999".toList = [] ∧
      ¬("Live".toList = "1999".toList) ∧ ¬("Live".toList = ([] : List Char)) ∧
      ¬("1999".toList = ([] : List Char)) ∧
      find_duplicates [cwLive, cw1999] = [(("prince".toList, []), [cwLive, cw1999])] ∧
      removalsOf [cwLive, cw1999] = [cw1999] := by decide

/-! ## PaginatedCollector: `get_all_tracks` -/

/-- The raw JSON track payload of one favorites item, as read by
`get_all_tracks`/`_parse_track_safe`: `id`, `title`, `artist.name`,
`album.title` and `audioQuality`, any of which may be missing. -/
structure RawTrack where
  id : Option Nat
  title : Option (List Char)
  artistName : Option (List Char)
  albumTitle : Option (List Char)
  audioQuality : Option (List Char)
deriving DecidableEq, Repr

/-- A parsed track as accumulated by the collector (`session.parse_track`
output or the `_parse_track_safe` fallback object); its `id` may still be
absent, in which case the collector drops it. -/
structure PTrack where
  id : Option Nat
  name : List Char
  artistName : List Char
  albumName : List Char
  audioQuality : Option (List Char)
deriving DecidableEq, Repr

/-- The minimal fallback object `_parse_track_safe` builds from the raw
JSON when `session.parse_track` raises. -/
def fallbackTrack (raw : RawTrack) : PTrack :=
  { id := raw.id
    name := raw.title.getD "?".toList
    artistName := raw.artistName.getD "?".toList
    albumName := raw.albumTitle.getD "?".toList
    audioQuality := raw.audioQuality }

/-- Model of `_parse_track_safe(session, track_data)`: try the library parser
(modelled as an abstract function, `none` = exception), fall back to the
minimal object. -/
def parseTrackSafe (parse : RawTrack → Option PTrack) (raw : RawTrack) : PTrack :=
  match parse raw with
  | some t => t
  | none => fallbackTrack raw

/-- The collector's loop state: `all_tracks`, `seen_ids`,
`skipped_unavailable`, `offset`, `consecutive_empty`. -/
structure CState where
  tracks : List PTrack
  seenIds : List Nat
  skipped : Nat
  offset : Nat
  consecEmpty : Nat
deriving DecidableEq, Repr

def initCState : CState := ⟨[], [], 0, 0, 0⟩

/-- Model of `MAX_TRACKS` (identical in both scripts). -/
def MAX_TRACKS : Nat := 50000

/-- One favorites page: each item wraps an optional `"item"` payload
(`none` = ghost entry deleted upstream).  A source maps an offset to a page
or to a transport error. -/
abbrev PageSource := Nat → Except Unit (List (Option RawTrack))

/-- The per-item body of the collector loop: count ghosts, skip falsy or
already-seen ids, parse with fallback, drop tracks whose parsed id is
absent, prefer the raw `audioQuality` when truthy, then record the track. -/
def processItem (parse : RawTrack → Option PTrack) (st : CState)
    (item : Option RawTrack) : CState :=
  match item with
  | none => { st with skipped := st.skipped + 1 }
  | some raw =>
    match raw.id with
    | none => st
    | some tid =>
      if tid = 0 then st
      else if tid ∈ st.seenIds then st
      else
        match (parseTrackSafe parse raw).id with
        | none => st
        | some _ =>
          let tr := parseTrackSafe parse raw
          let tr2 := match raw.audioQuality with
            | some q => if q = [] then tr else { tr with audioQuality := some q }
            | none => tr
          { st with seenIds := st.seenIds ++ [tid], tracks := st.tracks ++ [tr2] }

/-- The `while True` loop of `get_all_tracks`, fuel-indexed (`none` = fuel
exhausted; the Python loop can in fact run unboundedly on a pathological
source, so termination is not provable without fuel).  A transport error
breaks with the partial result; an empty page bumps `consecutive_empty`
and stops once it reaches 2; a non-empty page resets the counter, folds the
items, then stops if the accumulated track count has reached `MAX_TRACKS`;
otherwise the offset advances by the fixed limit 100. -/
def runCollect (src : PageSource) (parse : RawTrack → Option PTrack) :
    Nat → CState → Option CState
  | 0, _ => none
  | fuel + 1, st =>
    match src st.offset with
    | .error _ => some st
    | .ok items =>
      if items.isEmpty then
        if 2 ≤ st.consecEmpty + 1 then some st
        else runCollect src parse fuel
          { st with consecEmpty := st.consecEmpty + 1, offset := st.offset + 100 }
      else
        let st2 := items.foldl (processItem parse) { st with consecEmpty := 0 }
        if MAX_TRACKS ≤ st2.tracks.length then some st2
        else runCollect src parse fuel { st2 with offset := st2.offset + 100 }

/-- Model of `get_all_tracks(session)` for an abstract paginated source. -/
def get_all_tracks (src : PageSource) (parse : RawTrack → Option PTrack)
    (fuel : Nat) : Option CState :=
  runCollect src parse fuel initCState

theorem processItem_fields (parse : RawTrack → Option PTrack) (st : CState)
    (item : Option RawTrack) :
    (processItem parse st item).consecEmpty = st.consecEmpty ∧
      (processItem parse st item).offset = st.offset ∧
      (processItem parse st item).tracks.length ≤ st.tracks.length + 1 := by
  refine ⟨?_, ?_, ?_⟩ <;>
  · cases item with
    | none => simp [processItem]
    | some raw =>
      simp only [processItem]
      repeat' split
      all_goals first | rfl | simp

theorem foldl_processItem_fields (parse : RawTrack → Option PTrack) :
    ∀ (items : List (Option RawTrack)) (st : CState),
      ((items.foldl (processItem parse) st).consecEmpty = st.consecEmpty ∧
        (items.foldl (processItem parse) st).offset = st.offset ∧
        (items.foldl (processItem parse) st).tracks.length
          ≤ st.tracks.length + items.length) := by
  intro items
  induction items with
  | nil => intro st; simp
  | cons it rest ih =>
    intro st
    simp only [List.foldl_cons, List.length_cons]
    obtain ⟨h1, h2, h3⟩ := ih (processItem parse st it)
    obtain ⟨g1, g2, g3⟩ := processItem_fields parse st it
    exact ⟨by rw [h1, g1], by rw [h2, g2], by omega⟩

/-! ## Claim C4 -/

/-- C4: the collector's page-exhaustion exit takes exactly two consecutive
empty pages.  An empty page seen with a zero consecutive-empty counter does
not terminate (it only bumps the counter and advances the offset); an empty
page with the counter already at least 1 terminates; and any non-empty page
— even one whose only item has a null payload — resets the counter to zero
and continues into the cap check. -/
theorem collector_two_empty_pages :
    ∀ (src : PageSource) (parse : RawTrack → Option PTrack) (st : CState) (fuel : Nat),
      (src st.offset = .ok [] → st.consecEmpty = 0 →
        runCollect src parse (fuel + 1) st =
          runCollect src parse fuel
            { st with consecEmpty := 1, offset := st.offset + 100 }) ∧
      (src st.offset = .ok [] → 1 ≤ st.consecEmpty →
        runCollect src parse (fuel + 1) st = some st) ∧
      (∀ items, src st.offset = .ok items → items ≠ [] →
        (items.foldl (processItem parse) { st with consecEmpty := 0 }).consecEmpty = 0 ∧
        runCollect src parse (fuel + 1) st =
          (if MAX_TRACKS ≤
              (items.foldl (processItem parse) { st with consecEmpty := 0 }).tracks.length
            then some (items.foldl (processItem parse) { st with consecEmpty := 0 })
            else runCollect src parse fuel
              { items.foldl (processItem parse) { st with consecEmpty := 0 } with
                  offset :=
                    (items.foldl (processItem parse)
                      { st with consecEmpty := 0 }).offset + 100 })) := by
  intro src parse st fuel
  refine ⟨?_, ?_, ?_⟩
  · intro hsrc hce
    simp only [runCollect, hsrc, List.isEmpty_nil, if_true]
    rw [hce]
    rw [if_neg (by omega)]
  · intro hsrc hce
    simp only [runCollect, hsrc, List.isEmpty_nil, if_true]
    rw [if_pos (by omega)]
  · intro items hsrc hne
    have hempty : items.isEmpty = false := by
      cases items with
      | nil => exact absurd rfl hne
      | cons a as => rfl
    refine ⟨(foldl_processItem_fields parse items _).1, ?_⟩
    simp only [runCollect, hsrc, hempty, Bool.false_eq_true, if_false]

def cwSrc : PageSource := fun off =>
  if off = 0 then .ok [] else if off = 100 then .ok [none] else .ok []

def cwParse : RawTrack → Option PTrack := fun _ => none

/-- Witness for C4 at concrete inputs: a source with an empty page at
offset 0 and a ghost-only page at offset 100 continues past the single
empty page, resets the counter on the ghost page, and stops on a second
consecutive empty page. -/
theorem collector_two_empty_pages_witness :
    runCollect cwSrc cwParse 4 ⟨[], [], 0, 0, 0⟩ =
        runCollect cwSrc cwParse 3 ⟨[], [], 0, 100, 1⟩ ∧
      (([none] : List (Option RawTrack)).foldl (processItem cwParse)
        ⟨[], [], 0, 100, 0⟩).consecEmpty = 0 ∧
      runCollect cwSrc cwParse 2 ⟨[], [], 1, 300, 1⟩ = some ⟨[], [], 1, 300, 1⟩ :=
  ⟨(collector_two_empty_pages cwSrc cwParse ⟨[], [], 0, 0, 0⟩ 3).1 rfl rfl,
   ((collector_two_empty_pages cwSrc cwParse ⟨[], [], 0, 100, 1⟩ 5).2.2 [none] rfl
      (by decide)).1,
   (collector_two_empty_pages cwSrc cwParse ⟨[], [], 1, 300, 1⟩ 1).2.1 rfl (by decide)⟩

/-! ## Claim C5 -/

theorem isEmpty_false_of_length_pos {l : List α} (h : 0 < l.length) :
    l.isEmpty = false := by
  cases l with
  | nil => simp at h
  | cons a as => rfl

/-- C5 (amended): when every page carries at most the requested limit of
100 items, the collector's final track count can exceed `MAX_TRACKS` by at
most 99 — the cap is only checked after a whole page has been folded in,
so the count stays below `MAX_TRACKS + 100` but is not in general bounded
by `MAX_TRACKS` itself. -/
theorem collector_cap_overshoot_bound :
    ∀ (fuel : Nat) (src : PageSource) (parse : RawTrack → Option PTrack) (st st' : CState),
      (∀ off items, src off = .ok items → items.length ≤ 100) →
      st.tracks.length < MAX_TRACKS →
      runCollect src parse fuel st = some st' →
      st'.tracks.length ≤ MAX_TRACKS + 99 := by
  intro fuel
  induction fuel with
  | zero =>
    intro src parse st st' _ _ hrun
    simp [runCollect] at hrun
  | succ fuel ih =>
    intro src parse st st' hlim hlt hrun
    simp only [runCollect] at hrun
    cases hsrc : src st.offset with
    | error e =>
      rw [hsrc] at hrun
      simp only [] at hrun
      injection hrun with hrun
      rw [← hrun]
      omega
    | ok items =>
      rw [hsrc] at hrun
      simp only [] at hrun
      by_cases hempty : items.isEmpty
      · rw [hempty] at hrun
        simp only [if_true] at hrun
        split at hrun
        · injection hrun with hrun
          rw [← hrun]
          omega
        · exact ih src parse
            { st with consecEmpty := st.consecEmpty + 1, offset := st.offset + 100 }
            st' hlim hlt hrun
      · rw [Bool.not_eq_true] at hempty
        rw [hempty] at hrun
        simp only [Bool.false_eq_true, if_false] at hrun
        have hb : (items.foldl (processItem parse)
              { st with consecEmpty := 0 }).tracks.length
            ≤ st.tracks.length + items.length :=
          (foldl_processItem_fields parse items { st with consecEmpty := 0 }).2.2
        have hcnt : items.length ≤ 100 := hlim _ _ hsrc
        split at hrun
        · injection hrun with hrun
          rw [← hrun]
          omega
        · next hcap =>
          have hlt2 : (items.foldl (processItem parse)
              { st with consecEmpty := 0 }).tracks.length < MAX_TRACKS := by omega
          exact ih src parse
            { items.foldl (processItem parse) { st with consecEmpty := 0 } with
                offset :=
                  (items.foldl (processItem parse) { st with consecEmpty := 0 }).offset
                    + 100 }
            st' hlim hlt2 hrun

def emptySrc : PageSource := fun _ => .ok []

def pfNone : RawTrack → Option PTrack := fun _ => none

/-- Witness for the amended C5 at a concrete input: an always-empty source
terminates with zero tracks, within the `MAX_TRACKS + 99` bound. -/
theorem collector_cap_overshoot_bound_witness :
    runCollect emptySrc pfNone 3 initCState = some ⟨[], [], 0, 100, 1⟩ ∧
      (⟨[], [], 0, 100, 1⟩ : CState).tracks.length ≤ MAX_TRACKS + 99 :=
  ⟨rfl,
   collector_cap_overshoot_bound 3 emptySrc pfNone initCState ⟨[], [], 0, 100, 1⟩
     (fun off items h => by
       injection h with h
       rw [← h]
       decide)
     (by decide) rfl⟩

/-- A raw payload carrying only an identifier (used by the cap
counterexample source). -/
def cwRawId (i : Nat) : RawTrack := ⟨some i, none, none, none, none⟩

/-- A well-behaved source for the cap counterexample: 99 items on the
first page (short pages mid-stream are allowed — the spec itself says page
size is not a termination signal), 100 items on every later page, all ids
distinct and nonzero, every page within the requested limit of 100. -/
def capPage (off : Nat) : List (Option RawTrack) :=
  (List.range (if off = 0 then 99 else 100)).map (fun j => some (cwRawId (off + j + 1)))

def capSrc : PageSource := fun off => .ok (capPage off)

theorem capPage_isEmpty (off : Nat) : (capPage off).isEmpty = false := by
  unfold capPage
  split <;> exact isEmpty_false_of_length_pos (by simp)

theorem processItem_new (st : CState) (i : Nat) (hi : ¬i = 0) (hmem : ¬i ∈ st.seenIds) :
    processItem pfNone st (some (cwRawId i)) =
      { st with seenIds := st.seenIds ++ [i],
                tracks := st.tracks ++ [fallbackTrack (cwRawId i)] } := by
  simp only [processItem, cwRawId, parseTrackSafe, pfNone]
  rw [if_neg hi, if_neg hmem]
  rfl

theorem capFold : ∀ (n base : Nat) (st : CState), (∀ i ∈ st.seenIds, i ≤ base) →
    (((List.range n).map (fun j => some (cwRawId (base + j + 1)))).foldl
        (processItem pfNone) st).tracks.length = st.tracks.length + n ∧
      (∀ i ∈ (((List.range n).map (fun j => some (cwRawId (base + j + 1)))).foldl
        (processItem pfNone) st).seenIds, i ≤ base + n) ∧
      (((List.range n).map (fun j => some (cwRawId (base + j + 1)))).foldl
        (processItem pfNone) st).offset = st.offset ∧
      (((List.range n).map (fun j => some (cwRawId (base + j + 1)))).foldl
        (processItem pfNone) st).consecEmpty = st.consecEmpty := by
  intro n
  induction n with
  | zero =>
    intro base st hseen
    simp only [List.range_zero, List.map_nil, List.foldl_nil]
    exact ⟨by omega, fun i hi => by have := hseen i hi; omega, trivial, trivial⟩
  | succ n ih =>
    intro base st hseen
    rw [List.range_succ, List.map_append, List.foldl_append]
    obtain ⟨ih1, ih2, ih3, ih4⟩ := ih base st hseen
    set st2 := ((List.range n).map (fun j => some (cwRawId (base + j + 1)))).foldl
      (processItem pfNone) st with hst2
    simp only [List.map_cons, List.map_nil, List.foldl_cons, List.foldl_nil]
    rw [processItem_new st2 (base + n + 1) (by omega)
      (fun hmem => by have := ih2 _ hmem; omega)]
    refine ⟨?_, ?_, ih3, ih4⟩
    · simp only [List.length_append, List.length_cons, List.length_nil]
      omega
    · intro i hi
      rcases List.mem_append.mp hi with h | h
      · have := ih2 i h
        omega
      · simp only [List.mem_singleton] at h
        omega

/-- The collected-track count after `k` pages of `capSrc`. -/
def capCount (k : Nat) : Nat := if k = 0 then 0 else 100 * k - 1

theorem capRun : ∀ (j k : Nat) (st : CState), k + j = 500 →
    st.offset = 100 * k → st.consecEmpty = 0 → st.tracks.length = capCount k →
    (∀ i ∈ st.seenIds, i ≤ 100 * k) →
    ∃ st', runCollect capSrc pfNone (j + 1) st = some st' ∧
      st'.tracks.length = 50099 := by
  intro j
  induction j with
  | zero =>
    intro k st hk hoff hce hlen hseen
    have hk5 : k = 500 := by omega
    subst hk5
    have hsrc : capSrc st.offset = .ok (capPage 50000) := by rw [hoff]; rfl
    have hcp : capPage 50000 =
        (List.range 100).map (fun j => some (cwRawId (50000 + j + 1))) := rfl
    simp only [runCollect, hsrc, capPage_isEmpty, Bool.false_eq_true, if_false]
    rw [hcp]
    obtain ⟨h1, _, _, _⟩ := capFold 100 50000 { st with consecEmpty := 0 }
      (fun i hi => by have := hseen i hi; omega)
    have hlen' : ({ st with consecEmpty := 0 } : CState).tracks.length = capCount 500 :=
      hlen
    rw [hlen'] at h1
    have h1' : (((List.range 100).map (fun j => some (cwRawId (50000 + j + 1)))).foldl
        (processItem pfNone) { st with consecEmpty := 0 }).tracks.length = 50099 := by
      rw [h1]; decide
    rw [if_pos (by rw [h1']; decide)]
    exact ⟨_, rfl, h1'⟩
  | succ j ih =>
    intro k st hk hoff hce hlen hseen
    have hsrc : capSrc st.offset = .ok (capPage (100 * k)) := by rw [hoff]; rfl
    have hcp : capPage (100 * k) = (List.range (if 100 * k = 0 then 99 else 100)).map
      (fun j => some (cwRawId (100 * k + j + 1))) := rfl
    simp only [runCollect, hsrc, capPage_isEmpty, Bool.false_eq_true, if_false]
    rw [hcp]
    obtain ⟨h1, h2, h3, h4⟩ := capFold (if 100 * k = 0 then 99 else 100) (100 * k)
      { st with consecEmpty := 0 } (fun i hi => hseen i hi)
    set st2 := ((List.range (if 100 * k = 0 then 99 else 100)).map
      (fun j => some (cwRawId (100 * k + j + 1)))).foldl (processItem pfNone)
      { st with consecEmpty := 0 } with hst2
    have hlen0 : ({ st with consecEmpty := 0 } : CState).tracks.length = capCount k := hlen
    rw [hlen0] at h1
    have hoff2 : st2.offset = 100 * k := by
      rw [h3]
      exact hoff
    have hce2 : st2.consecEmpty = 0 := by rw [h4]
    have hnewlen : st2.tracks.length = capCount (k + 1) := by
      rw [h1]
      unfold capCount
      by_cases hk0 : k = 0
      · subst hk0
        decide
      · rw [if_neg hk0, if_neg (show ¬(100 * k = 0) by omega),
          if_neg (show ¬(k + 1 = 0) by omega)]
        omega
    rw [if_neg (show ¬(MAX_TRACKS ≤ st2.tracks.length) by
      rw [hnewlen]
      unfold capCount MAX_TRACKS
      rw [if_neg (show ¬(k + 1 = 0) by omega)]
      omega)]
    refine ih (k + 1) { st2 with offset := st2.offset + 100 } (by omega) ?_ ?_ ?_ ?_
    · show st2.offset + 100 = 100 * (k + 1)
      rw [hoff2]
      ring
    · exact hce2
    · exact hnewlen
    · intro i hi
      have hb := h2 i hi
      by_cases hk0 : 100 * k = 0
      · rw [if_pos hk0] at hb
        omega
      · rw [if_neg hk0] at hb
        omega

/-- C5 counterexample: on a source whose pages all stay within the
requested limit of 100 items but whose first page is one item short, the
collector returns 50,099 tracks — strictly more than `MAX_TRACKS` — so the
result is not bounded by the cap and does not stop exactly at it. -/
theorem collector_cap_exceeded :
    (get_all_tracks capSrc pfNone 501).map (fun st => st.tracks.length) = some 50099 ∧
      MAX_TRACKS < 50099 := by
  obtain ⟨st', h1, h2⟩ := capRun 500 0 initCState (by omega) rfl rfl rfl
    (by intro i hi; simp [initCState] at hi)
  refine ⟨?_, by decide⟩
  unfold get_all_tracks
  rw [h1, Option.map_some', h2]

/-! ## ConvergenceLoop: `remove_duplicates_round` and the `main` loop -/

/-- Model of `remove_duplicates_round` reduced to its observable count: collect the
round's snapshot, find duplicates, return 0 straight away when there are
none, else attempt removal of every extra (`group[1:]`) and count the
successful removals (`removeOk` models which `remove_track` calls the
service accepts). -/
def roundEliminated (tracks : List Track) (removeOk : Nat → Bool) : Nat :=
  if (find_duplicates tracks).isEmpty then 0
  else ((removalsOf tracks).filter (fun t => removeOk t.id)).length

/-- The `while True` loop of `main` (step 3), fuel-indexed: run a round; if
it eliminated zero copies stop and report the final round number, else move
to the next round.  `collect` gives each round's snapshot of the remote
list and `removeOk` each round's removal outcomes. -/
def convergenceRounds (collect : Nat → List Track) (removeOk : Nat → Nat → Bool) :
    Nat → Nat → Option Nat
  | 0, _ => none
  | fuel + 1, roundNum =>
    if roundEliminated (collect roundNum) (removeOk roundNum) = 0 then some roundNum
    else convergenceRounds collect removeOk fuel (roundNum + 1)

theorem convergenceRounds_ge :
    ∀ (fuel r x : Nat) (collect : Nat → List Track) (removeOk : Nat → Nat → Bool),
      convergenceRounds collect removeOk fuel r = some x → r ≤ x := by
  intro fuel
  induction fuel with
  | zero =>
    intro r x collect removeOk h
    simp [convergenceRounds] at h
  | succ fuel ih =>
    intro r x collect removeOk h
    simp only [convergenceRounds] at h
    split at h
    · injection h with h
      omega
    · have := ih (r + 1) x collect removeOk h
      omega

/-! ## Claim C6 -/

def cwDupA : Track := ⟨1, some "Song".toList, some "Band".toList, none, none⟩

def cwDupB : Track := ⟨2, some "Song".toList, some "Band".toList, none, none⟩

def cwSingle : Track := ⟨3, some "Other".toList, some "Band".toList, none, none⟩

/-- The remote snapshots of the C6 scenario: round 1 sees one duplicate
pair, every later round sees a single track. -/
def cwColl : Nat → List Track := fun r => if r = 1 then [cwDupA, cwDupB] else [cwSingle]

/-- C6 counterexample: in a run whose round 1 removes one copy and whose
round 2 finds zero duplicate groups, the loop stops right after the
zero-group round (round count 2) — a zero-group round does end the loop,
because it necessarily removes zero copies. -/
theorem convergence_zero_group_round_stops :
    find_duplicates (cwColl 2) = [] ∧
      convergenceRounds cwColl (fun _ _ => true) 3 1 = some 2 := by decide

/-- C6 (amended): the loop ends after round `r` exactly when round `r`
removed zero copies; since a round that finds zero duplicate groups removes
zero copies, a zero-group round does by itself end the loop. -/
theorem convergence_stop_iff_zero_removed :
    ∀ (collect : Nat → List Track) (removeOk : Nat → Nat → Bool) (fuel r : Nat),
      (convergenceRounds collect removeOk (fuel + 1) r = some r ↔
        roundEliminated (collect r) (removeOk r) = 0) ∧
      (find_duplicates (collect r) = [] →
        roundEliminated (collect r) (removeOk r) = 0) := by
  intro collect removeOk fuel r
  constructor
  · constructor
    · intro h
      by_contra hne
      simp only [convergenceRounds, if_neg hne] at h
      have := convergenceRounds_ge fuel (r + 1) r collect removeOk h
      omega
    · intro h
      simp only [convergenceRounds, if_pos h]
  · intro h
    unfold roundEliminated
    rw [h]
    rfl

/-- Witness for the amended C6 at concrete inputs: instantiated on the
counterexample scenario's round 2. -/
theorem convergence_stop_iff_zero_removed_witness :
    convergenceRounds cwColl (fun _ _ => true) 1 2 = some 2 ∧
      roundEliminated (cwColl 2) ((fun _ _ => true) 2) = 0 :=
  ⟨(convergence_stop_iff_zero_removed cwColl (fun _ _ => true) 0 2).1.mpr
      ((convergence_stop_iff_zero_removed cwColl (fun _ _ => true) 0 2).2 (by decide)),
   (convergence_stop_iff_zero_removed cwColl (fun _ _ => true) 0 2).2 (by decide)⟩

/-! ## QualityUpgradeMatcher: `search_better_version` and `process_tracks` -/

/-- Model of `TOP_QUALITIES` from `mejorar_calidad_tidal.py`. -/
def TOP_QUALITIES : List (List Char) := ["HI_RES_LOSSLESS", "HI_RES"].map String.toList

/-- The upgrade script's artist fallback:
`track.artist.name if track.artist else ""`. -/
def artistOrEmpty (t : Track) : List Char :=
  match t.artist with
  | some a => a
  | none => []

/-- The candidate loop of `search_better_version`: skip candidates without
an `audio_quality`, then without exactly equal normalized artist and title,
and keep the first candidate strictly exceeding the running best rank
(which starts at the track's own rank). -/
def pickBest (na nt : List Char) : List Track → Option Track → Nat → Option Track
  | [], best, _ => best
  | c :: cs, best, bestRank =>
    match c.audioQuality with
    | none => pickBest na nt cs best bestRank
    | some _ =>
      if normalize (artistOrEmpty c) = na then
        if normalize (orEmpty c.name) = nt then
          if bestRank < quality_rank c then pickBest na nt cs (some c) (quality_rank c)
          else pickBest na nt cs best bestRank
        else pickBest na nt cs best bestRank
      else pickBest na nt cs best bestRank

/-- Model of `search_better_version(session, track)` given the search results the
catalog returned for the track's query. -/
def search_better_version (t : Track) (candidates : List Track) : Option Track :=
  pickBest (normalize (artistOrEmpty t)) (normalize (orEmpty t.name)) candidates none
    (quality_rank t)

/-- A candidate survives `search_better_version`'s filter: it has an
`audio_quality` and its normalized artist and title exactly equal the
source track's normalized forms. -/
def sbvQualifies (t c : Track) : Bool :=
  c.audioQuality.isSome
    && decide (normalize (artistOrEmpty c) = normalize (artistOrEmpty t))
    && decide (normalize (orEmpty c.name) = normalize (orEmpty t.name))

/-- Reference chooser: first-seen candidate at the strictly highest
qualifying rank above the threshold. -/
def chooseUpgrade (t : Track) : Nat → List Track → Option Track
  | _, [] => none
  | r, c :: cs =>
    if sbvQualifies t c = true ∧ r < quality_rank c then
      match chooseUpgrade t (quality_rank c) cs with
      | some d => some d
      | none => some c
    else chooseUpgrade t r cs

theorem chooseUpgrade_cons (t : Track) (r : Nat) (c : Track) (cs : List Track) :
    chooseUpgrade t r (c :: cs) =
      (if sbvQualifies t c = true ∧ r < quality_rank c then
        match chooseUpgrade t (quality_rank c) cs with
        | some d => some d
        | none => some c
      else chooseUpgrade t r cs) := rfl

theorem pickBest_acc (t : Track) : ∀ (cands : List Track) (r : Nat),
    (∀ b : Track,
      pickBest (normalize (artistOrEmpty t)) (normalize (orEmpty t.name)) cands (some b) r =
        (match chooseUpgrade t r cands with
          | some d => some d
          | none => some b)) ∧
    pickBest (normalize (artistOrEmpty t)) (normalize (orEmpty t.name)) cands none r =
      chooseUpgrade t r cands := by
  intro cands
  induction cands with
  | nil => intro r; exact ⟨fun b => rfl, rfl⟩
  | cons c cs ih =>
    intro r
    rcases hq : c.audioQuality with _ | q
    · have hqual : sbvQualifies t c = false := by
        unfold sbvQualifies
        rw [hq]
        rfl
      have hchoose : chooseUpgrade t r (c :: cs) = chooseUpgrade t r cs := by
        rw [chooseUpgrade_cons, if_neg (by rw [hqual]; simp)]
      have hpb : ∀ b : Option Track,
          pickBest (normalize (artistOrEmpty t)) (normalize (orEmpty t.name)) (c :: cs) b r =
            pickBest (normalize (artistOrEmpty t)) (normalize (orEmpty t.name)) cs b r := by
        intro b
        simp only [pickBest, hq]
      refine ⟨fun b => ?_, ?_⟩
      · rw [hpb (some b), hchoose]
        exact (ih r).1 b
      · rw [hpb none, hchoose]
        exact (ih r).2
    · by_cases ha : normalize (artistOrEmpty c) = normalize (artistOrEmpty t)
      · by_cases hn : normalize (orEmpty c.name) = normalize (orEmpty t.name)
        · have hqual : sbvQualifies t c = true := by
            unfold sbvQualifies
            rw [hq]
            simp only [Option.isSome_some, Bool.true_and]
            rw [decide_eq_true ha, decide_eq_true hn]
            rfl
          by_cases hr : r < quality_rank c
          · have hchoose : chooseUpgrade t r (c :: cs) =
                (match chooseUpgrade t (quality_rank c) cs with
                  | some d => some d
                  | none => some c) := by
              rw [chooseUpgrade_cons, if_pos ⟨hqual, hr⟩]
            have hpb : ∀ b : Option Track,
                pickBest (normalize (artistOrEmpty t)) (normalize (orEmpty t.name))
                    (c :: cs) b r =
                  pickBest (normalize (artistOrEmpty t)) (normalize (orEmpty t.name))
                    cs (some c) (quality_rank c) := by
              intro b
              simp only [pickBest, hq]
              rw [if_pos ha, if_pos hn, if_pos hr]
            refine ⟨fun b => ?_, ?_⟩
            · rw [hpb (some b), (ih (quality_rank c)).1 c, hchoose]
              cases chooseUpgrade t (quality_rank c) cs <;> rfl
            · rw [hpb none, (ih (quality_rank c)).1 c, hchoose]
          · have hchoose : chooseUpgrade t r (c :: cs) = chooseUpgrade t r cs := by
              rw [chooseUpgrade_cons, if_neg (fun hc => hr hc.2)]
            have hpb : ∀ b : Option Track,
                pickBest (normalize (artistOrEmpty t)) (normalize (orEmpty t.name))
                    (c :: cs) b r =
                  pickBest (normalize (artistOrEmpty t)) (normalize (orEmpty t.name))
                    cs b r := by
              intro b
              simp only [pickBest, hq]
              rw [if_pos ha, if_pos hn, if_neg hr]
            refine ⟨fun b => ?_, ?_⟩
            · rw [hpb (some b), hchoose]
              exact (ih r).1 b
            · rw [hpb none, hchoose]
              exact (ih r).2
        · have hqual : sbvQualifies t c = false := by
            unfold sbvQualifies
            rw [hq]
            simp [hn]
          have hchoose : chooseUpgrade t r (c :: cs) = chooseUpgrade t r cs := by
            rw [chooseUpgrade_cons, if_neg (by rw [hqual]; simp)]
          have hpb : ∀ b : Option Track,
              pickBest (normalize (artistOrEmpty t)) (normalize (orEmpty t.name))
                  (c :: cs) b r =
                pickBest (normalize (artistOrEmpty t)) (normalize (orEmpty t.name))
                  cs b r := by
            intro b
            simp only [pickBest, hq]
            rw [if_pos ha, if_neg hn]
          refine ⟨fun b => ?_, ?_⟩
          · rw [hpb (some b), hchoose]
            exact (ih r).1 b
          · rw [hpb none, hchoose]
            exact (ih r).2
      · have hqual : sbvQualifies t c = false := by
          unfold sbvQualifies
          rw [hq]
          simp [ha]
        have hchoose : chooseUpgrade t r (c :: cs) = chooseUpgrade t r cs := by
          rw [chooseUpgrade_cons, if_neg (by rw [hqual]; simp)]
        have hpb : ∀ b : Option Track,
            pickBest (normalize (artistOrEmpty t)) (normalize (orEmpty t.name))
                (c :: cs) b r =
              pickBest (normalize (artistOrEmpty t)) (normalize (orEmpty t.name))
                cs b r := by
          intro b
          simp only [pickBest, hq]
          rw [if_neg ha]
        refine ⟨fun b => ?_, ?_⟩
        · rw [hpb (some b), hchoose]
          exact (ih r).1 b
        · rw [hpb none, hchoose]
          exact (ih r).2

theorem chooseUpgrade_none_iff (t : Track) : ∀ (cands : List Track) (r : Nat),
    chooseUpgrade t r cands = none ↔
      ∀ c ∈ cands, sbvQualifies t c = true → quality_rank c ≤ r := by
  intro cands
  induction cands with
  | nil => intro r; simp [chooseUpgrade]
  | cons c cs ih =>
    intro r
    rw [chooseUpgrade_cons]
    by_cases hg : sbvQualifies t c = true ∧ r < quality_rank c
    · rw [if_pos hg]
      constructor
      · intro h
        exfalso
        cases hX : chooseUpgrade t (quality_rank c) cs <;> rw [hX] at h <;> cases h
      · intro h
        exfalso
        have := h c (by simp) hg.1
        omega
    · rw [if_neg hg, ih r]
      constructor
      · intro h d hd hq
        rcases List.mem_cons.mp hd with h1 | h1
        · have hnr : ¬(r < quality_rank c) := fun hlt => hg ⟨h1 ▸ hq, hlt⟩
          rw [h1]
          omega
        · exact h d h1 hq
      · intro h d hd hq
        exact h d (List.mem_cons_of_mem _ hd) hq

theorem chooseUpgrade_some_spec (t : Track) : ∀ (cands : List Track) (r : Nat) (c : Track),
    chooseUpgrade t r cands = some c →
      sbvQualifies t c = true ∧ r < quality_rank c ∧
      (∀ d ∈ cands, sbvQualifies t d = true → quality_rank d ≤ quality_rank c) ∧
      ∃ l1 l2, cands = l1 ++ c :: l2 ∧
        ∀ d ∈ l1, sbvQualifies t d = true → quality_rank d < quality_rank c := by
  intro cands
  induction cands with
  | nil => intro r c h; simp [chooseUpgrade] at h
  | cons a cs ih =>
    intro r c h
    rw [chooseUpgrade_cons] at h
    by_cases hg : sbvQualifies t a = true ∧ r < quality_rank a
    · rw [if_pos hg] at h
      cases hX : chooseUpgrade t (quality_rank a) cs with
      | some d =>
        rw [hX] at h
        injection h with h
        subst h
        obtain ⟨h1, h2, h3, l1, l2, he, hl⟩ := ih (quality_rank a) d hX
        refine ⟨h1, by omega, ?_, a :: l1, l2, by rw [he, List.cons_append], ?_⟩
        · intro e he2 hq
          rcases List.mem_cons.mp he2 with hea | hec
          · rw [hea]
            omega
          · exact h3 e hec hq
        · intro e he2 hq
          rcases List.mem_cons.mp he2 with hea | hel
          · rw [hea]
            exact h2
          · exact hl e hel hq
      | none =>
        rw [hX] at h
        injection h with h
        subst h
        have hmax := (chooseUpgrade_none_iff t cs (quality_rank a)).mp hX
        refine ⟨hg.1, hg.2, ?_, [], cs, rfl, by simp⟩
        intro d hd hq
        rcases List.mem_cons.mp hd with hda | hdc
        · rw [hda]
        · exact hmax d hdc hq
    · rw [if_neg hg] at h
      obtain ⟨h1, h2, h3, l1, l2, he, hl⟩ := ih r c h
      refine ⟨h1, h2, ?_, a :: l1, l2, by rw [he, List.cons_append], ?_⟩
      · intro d hd hq
        rcases List.mem_cons.mp hd with hda | hdc
        · have hnr : ¬(r < quality_rank a) := fun hlt => hg ⟨hda ▸ hq, hlt⟩
          rw [hda]
          omega
        · exact h3 d hdc hq
      · intro d hd hq
        rcases List.mem_cons.mp hd with hda | hdl
        · have hnr : ¬(r < quality_rank a) := fun hlt => hg ⟨hda ▸ hq, hlt⟩
          rw [hda]
          omega
        · exact hl d hdl hq

/-! ## Claim C7 -/

/-- C7: `search_better_version` returns `none` exactly when no qualifying
candidate (one with a known quality whose normalized artist and normalized
title exactly equal the source track's normalized forms) has a rank
strictly above the track's own; and a returned candidate qualifies,
strictly exceeds the track's current tier, is of maximal rank among the
qualifying candidates, and is the first-seen candidate at that winning tier
(every earlier qualifying candidate ranks strictly lower). -/
theorem search_better_version_spec :
    ∀ (t : Track) (cands : List Track),
      (search_better_version t cands = none ↔
        ∀ c ∈ cands, sbvQualifies t c = true → quality_rank c ≤ quality_rank t) ∧
      ∀ c, search_better_version t cands = some c →
        sbvQualifies t c = true ∧ quality_rank t < quality_rank c ∧
        (∀ d ∈ cands, sbvQualifies t d = true → quality_rank d ≤ quality_rank c) ∧
        ∃ l1 l2, cands = l1 ++ c :: l2 ∧
          ∀ d ∈ l1, sbvQualifies t d = true → quality_rank d < quality_rank c := by
  intro t cands
  have heq : search_better_version t cands = chooseUpgrade t (quality_rank t) cands :=
    (pickBest_acc t cands (quality_rank t)).2
  constructor
  · rw [heq]
    exact chooseUpgrade_none_iff t cands (quality_rank t)
  · intro c hc
    rw [heq] at hc
    exact chooseUpgrade_some_spec t cands (quality_rank t) c hc

def cwUpTrack : Track := ⟨100, some "Song".toList, some "Band".toList, none, some "LOW".toList⟩

def cwCandOther : Track :=
  ⟨101, some "Different".toList, some "Band".toList, none, some "HI_RES_LOSSLESS".toList⟩

def cwCandHigh : Track :=
  ⟨102, some "Song".toList, some "Band".toList, none, some "HIGH".toList⟩

/-- Witness for C7 at concrete inputs: among a title-mismatched lossless
candidate and an exactly-matching HIGH candidate, the matching HIGH one is
selected for a LOW track, with all the stated properties. -/
theorem search_better_version_spec_witness :
    sbvQualifies cwUpTrack cwCandHigh = true ∧
      quality_rank cwUpTrack < quality_rank cwCandHigh ∧
      (∀ d ∈ [cwCandOther, cwCandHigh], sbvQualifies cwUpTrack d = true →
        quality_rank d ≤ quality_rank cwCandHigh) ∧
      ∃ l1 l2, [cwCandOther, cwCandHigh] = l1 ++ cwCandHigh :: l2 ∧
        ∀ d ∈ l1, sbvQualifies cwUpTrack d = true →
          quality_rank d < quality_rank cwCandHigh :=
  (search_better_version_spec cwUpTrack [cwCandOther, cwCandHigh]).2 cwCandHigh (by decide)

/-! ## `process_tracks`: per-track upgrade application -/

/-- The observable outcome of one iteration of `process_tracks`. -/
inductive UpOutcome where
  | skippedTop
  | noUpgrade
  | addFailed
  | removeFailed
  | improved
deriving DecidableEq, Repr

/-- One remote interaction attempted by an iteration (the trace of calls
actually issued). -/
inductive MOp where
  | searchCall
  | addAttempt (tid : Nat) (ok : Bool)
  | removeAttempt (tid : Nat) (ok : Bool)
deriving DecidableEq, Repr

/-- A per-item error recorded in the `errors` list
(`ADD FAIL` / `REMOVE FAIL`). -/
inductive MErr where
  | addFail (tid cid : Nat)
  | removeFail (tid : Nat)
deriving DecidableEq, Repr

/-- Model of `favorites.add_track` effect on the remote favorites set. -/
def addFav (favs : List Nat) (i : Nat) : List Nat := if i ∈ favs then favs else i :: favs

/-- Model of `favorites.remove_track` effect on the remote favorites set. -/
def removeFav (favs : List Nat) (i : Nat) : List Nat := favs.filter (fun x => x ≠ i)

/-- The result of one iteration of the `process_tracks` loop body. -/
structure StepResult where
  outcome : UpOutcome
  favs : List Nat
  ops : List MOp
  errs : List MErr
deriving DecidableEq, Repr

/-- One iteration of `process_tracks` over track `t`: skip tracks already
in `TOP_QUALITIES` without issuing a search; otherwise search, and on a
found candidate add it (recording an `ADD FAIL` error and attempting no
removal when the add fails) then remove the original (recording a
`REMOVE FAIL` error and keeping both copies, with no rollback of the added
candidate, when the removal fails).  `searchResults` models the catalog's
search response, `addOk`/`removeOk` which mutations the service accepts,
and `favs` the remote favorites set. -/
def processOne (searchResults : Track → List Track) (addOk removeOk : Nat → Bool)
    (favs : List Nat) (t : Track) : StepResult :=
  if get_quality t ∈ TOP_QUALITIES then ⟨.skippedTop, favs, [], []⟩
  else
    match search_better_version t (searchResults t) with
    | none => ⟨.noUpgrade, favs, [.searchCall], []⟩
    | some better =>
      if addOk better.id then
        if removeOk t.id then
          ⟨.improved, removeFav (addFav favs better.id) t.id,
            [.searchCall, .addAttempt better.id true, .removeAttempt t.id true], []⟩
        else
          ⟨.removeFailed, addFav favs better.id,
            [.searchCall, .addAttempt better.id true, .removeAttempt t.id false],
            [.removeFail t.id]⟩
      else
        ⟨.addFailed, favs, [.searchCall, .addAttempt better.id false],
          [.addFail t.id better.id]⟩

/-- Accumulated result of `process_tracks`. -/
structure UpResult where
  improved : Nat
  skippedTop : Nat
  favs : List Nat
  ops : List MOp
  errs : List MErr
deriving DecidableEq, Repr

/-- How one iteration's result combines with the rest of the run. -/
def combineStep (p : StepResult) (r : UpResult) : UpResult :=
  ⟨(if p.outcome = .improved then 1 else 0) + r.improved,
   (if p.outcome = .skippedTop then 1 else 0) + r.skippedTop,
   r.favs, p.ops ++ r.ops, p.errs ++ r.errs⟩

/-- Model of `process_tracks(session, tracks, ...)`: iterate over all tracks with no
early exit, threading the favorites state. -/
def processTracks (searchResults : Track → List Track) (addOk removeOk : Nat → Bool) :
    List Nat → List Track → UpResult
  | favs, [] => ⟨0, 0, favs, [], []⟩
  | favs, t :: rest =>
    combineStep (processOne searchResults addOk removeOk favs t)
      (processTracks searchResults addOk removeOk
        (processOne searchResults addOk removeOk favs t).favs rest)

/-! ## Claim C8 -/

/-- C8: the upgrade swap is a two-step, non-atomic transaction.  For a
non-top track with a found candidate: if the add fails, the favorites set
is unchanged, no removal is attempted (the trace holds an add attempt but
no remove attempt), the `ADD FAIL` error is recorded and the outcome is
unimproved; if the add succeeds and the remove fails, both copies are left
present (the candidate is in the final set and the original, if present
before, still is — no rollback), the `REMOVE FAIL` error is recorded; and
in every case processing continues with the remaining tracks, whose
results are combined in. -/
theorem upgrade_swap_non_atomic :
    ∀ (sr : Track → List Track) (addOk removeOk : Nat → Bool) (favs : List Nat)
      (t better : Track),
      ¬(get_quality t ∈ TOP_QUALITIES) →
      search_better_version t (sr t) = some better →
      (addOk better.id = false →
        processOne sr addOk removeOk favs t =
          ⟨.addFailed, favs, [.searchCall, .addAttempt better.id false],
            [.addFail t.id better.id]⟩ ∧
        ∀ i ok, ¬(MOp.removeAttempt i ok ∈ (processOne sr addOk removeOk favs t).ops)) ∧
      (addOk better.id = true → removeOk t.id = false →
        processOne sr addOk removeOk favs t =
          ⟨.removeFailed, addFav favs better.id,
            [.searchCall, .addAttempt better.id true, .removeAttempt t.id false],
            [.removeFail t.id]⟩ ∧
        better.id ∈ addFav favs better.id ∧
        (t.id ∈ favs → t.id ∈ addFav favs better.id)) ∧
      (∀ rest, processTracks sr addOk removeOk favs (t :: rest) =
        combineStep (processOne sr addOk removeOk favs t)
          (processTracks sr addOk removeOk (processOne sr addOk removeOk favs t).favs
            rest)) := by
  intro sr addOk removeOk favs t better htop hfound
  have hone : ∀ b : Bool, addOk better.id = b →
      processOne sr addOk removeOk favs t =
        (if b then
          (if removeOk t.id then
            ⟨.improved, removeFav (addFav favs better.id) t.id,
              [.searchCall, .addAttempt better.id true, .removeAttempt t.id true], []⟩
          else
            ⟨.removeFailed, addFav favs better.id,
              [.searchCall, .addAttempt better.id true, .removeAttempt t.id false],
              [.removeFail t.id]⟩)
        else
          ⟨.addFailed, favs, [.searchCall, .addAttempt better.id false],
            [.addFail t.id better.id]⟩) := by
    intro b hb
    unfold processOne
    rw [if_neg htop, hfound, ← hb]
  refine ⟨?_, ?_, fun rest => rfl⟩
  · intro hb
    have h1 := hone false hb
    rw [if_neg (by simp)] at h1
    refine ⟨h1, ?_⟩
    intro i ok hmem
    rw [h1] at hmem
    simp at hmem
  · intro hb hr
    have h1 := hone true hb
    rw [if_pos rfl, if_neg (by rw [hr]; simp)] at h1
    refine ⟨h1, ?_, ?_⟩
    · unfold addFav
      by_cases hmem : better.id ∈ favs
      · rw [if_pos hmem]
        exact hmem
      · rw [if_neg hmem]
        simp
    · intro hmem
      unfold addFav
      by_cases hmem2 : better.id ∈ favs
      · rw [if_pos hmem2]
        exact hmem
      · rw [if_neg hmem2]
        exact List.mem_cons_of_mem _ hmem

def cwBetter : Track :=
  ⟨200, some "Song".toList, some "Band".toList, none, some "LOSSLESS".toList⟩

def cwSr : Track → List Track := fun _ => [cwBetter]

/-- Witness for C8 at concrete inputs: the same low-quality track processed
once against a service that rejects the add, and once against a service
that accepts the add but rejects the removal. -/
theorem upgrade_swap_non_atomic_witness :
    (processOne cwSr (fun _ => false) (fun _ => true) [100] cwUpTrack =
        ⟨.addFailed, [100], [.searchCall, .addAttempt 200 false], [.addFail 100 200]⟩) ∧
      (processOne cwSr (fun _ => true) (fun _ => false) [100] cwUpTrack =
        ⟨.removeFailed, addFav [100] 200,
          [.searchCall, .addAttempt 200 true, .removeAttempt 100 false],
          [.removeFail 100]⟩) ∧
      (100 ∈ addFav [100] 200) :=
  ⟨((upgrade_swap_non_atomic cwSr (fun _ => false) (fun _ => true) [100] cwUpTrack cwBetter
      (by decide) (by decide)).1 rfl).1,
   (((upgrade_swap_non_atomic cwSr (fun _ => true) (fun _ => false) [100] cwUpTrack cwBetter
      (by decide) (by decide)).2.1 rfl rfl)).1,
   (((upgrade_swap_non_atomic cwSr (fun _ => true) (fun _ => false) [100] cwUpTrack cwBetter
      (by decide) (by decide)).2.1 rfl rfl)).2.2 (by decide)⟩

/-! ## Claim C9 -/

/-- C9: a track whose quality string is HI_RES, like one whose quality is
HI_RES_LOSSLESS, is covered by the `TOP_QUALITIES` skip: `process_tracks`
records it as already-top and issues no search and no mutation (empty
operation trace), for every search function and service behavior — so even
though `QUALITY_RANK` ranks HI_RES at 4, strictly below HI_RES_LOSSLESS at
5, a HI_RES track can never be upgraded to HI_RES_LOSSLESS. -/
theorem top_tier_skip_covers_hi_res :
    ∀ (sr : Track → List Track) (addOk removeOk : Nat → Bool) (favs : List Nat) (t : Track),
      (get_quality t = "HI_RES".toList ∨ get_quality t = "HI_RES_LOSSLESS".toList) →
      processOne sr addOk removeOk favs t = ⟨.skippedTop, favs, [], []⟩ ∧
        lookupRank QUALITY_RANK "HI_RES".toList = 4 ∧
        lookupRank QUALITY_RANK "HI_RES_LOSSLESS".toList = 5 := by
  intro sr addOk removeOk favs t ht
  refine ⟨?_, by decide, by decide⟩
  unfold processOne
  rw [if_pos ?hmem]
  case hmem =>
    rcases ht with h | h <;> rw [h] <;> decide

def cwHiRes : Track :=
  ⟨300, some "Song".toList, some "Band".toList, none, some "HI_RES".toList⟩

/-- Witness for C9 at a concrete input: a HI_RES track is skipped untouched
even when the catalog offers a HI_RES_LOSSLESS copy of the same song. -/
theorem top_tier_skip_covers_hi_res_witness :
    processOne (fun _ => [⟨301, some "Song".toList, some "Band".toList, none,
        some "HI_RES_LOSSLESS".toList⟩]) (fun _ => true) (fun _ => true) [300] cwHiRes =
      ⟨.skippedTop, [300], [], []⟩ ∧
      lookupRank QUALITY_RANK "HI_RES".toList = 4 ∧
      lookupRank QUALITY_RANK "HI_RES_LOSSLESS".toList = 5 :=
  top_tier_skip_covers_hi_res
    (fun _ => [⟨301, some "Song".toList, some "Band".toList, none,
      some "HI_RES_LOSSLESS".toList⟩])
    (fun _ => true) (fun _ => true) [300] cwHiRes (by decide)

end Tidal
